import Mathlib

/-! # sm64 (PC/PSP port): configuration file and controller entry point

A shallow embedding of `src/pc/configfile.c` and
`src/pc/controller/controller_entry_point.c`, followed by theorems about it.

* C strings are lists of characters; the terminating NUL is the end of the list.
  A `char *` into a buffer is the suffix of the string that starts there.
* The C library functions the code calls (`isspace`, `fgets`, `strlen`, `feof`,
  `strcmp`, `sscanf`, `strtoul`, `fopen`, `fprintf`, `printf`, `puts`) are
  modelled after the C standard, in the "C" locale.
* `assert` is active: a failed assertion ends the run with a `Fault`.
* The preprocessor branches of `configfile.c` are kept: a `Build` says which symbols are
  defined. The array `controller_implementations` is a parameter.
* Files are texts (lists of characters) found by name; whether a file can be opened for
  writing is part of the file system. Standard output is the text printed so far.
* Loops that C runs until a condition holds are given a budget that is large enough; the
  theorems conclude that a run returns (`Except.ok`), not only what it returns.
-/

namespace Configfile

/-! ## Build switches and faults -/

/-- The preprocessor symbols `configfile.c` tests. -/
structure Build where
  /-- `defined(TARGET_PSP)` -/
  TARGET_PSP : Bool
  /-- `defined(DEBUG)` -/
  DEBUG : Bool
  deriving DecidableEq, Repr

/-- Ways a run can stop without returning. -/
inductive Fault where
  /-- `assert(offset > 0)` in `read_file_line` -/
  | assert_offset_positive
  /-- `assert(!isspace((int)*str))` in `word_split` -/
  | assert_not_whitespace
  /-- the model's loop budget is used up (never happens with the budgets used below) -/
  | out_of_fuel
  deriving DecidableEq, Repr

/-! ## C library -/

/-- The character NUL. -/
def NUL : Char := '\x00'

/-- `isspace` in the "C" locale: space, `\t`, `\n`, `\v`, `\f`, `\r`. -/
def isspace (c : Char) : Bool :=
  c = ' ' || c = '\t' || c = '\n' || c = '\x0b' || c = '\x0c' || c = '\r'

/-- `isdigit`. -/
def isdigit (c : Char) : Bool :=
  decide (48 ≤ c.toNat) && decide (c.toNat ≤ 57)

/-- `strlen` on a memory area: the number of characters before the first NUL. -/
def strlen (buffer : List Char) : Nat :=
  (buffer.takeWhile (fun c => c != NUL)).length

/-- The C string held in a memory area: the characters before the first NUL. -/
def cstring (buffer : List Char) : List Char :=
  buffer.takeWhile (fun c => c != NUL)

/-- A stream opened for reading: the characters not read yet and the end-of-file indicator. -/
structure FILE where
  rest : List Char
  eof : Bool
  deriving DecidableEq, Repr

/-- The reading loop of `fgets`: reads at most `k` characters, stops after a newline.
Returns the characters read, the characters left, and whether end of file was met. -/
def fgets_read : Nat → List Char → List Char × List Char × Bool
  | 0, cs => ([], cs, false)
  | _ + 1, [] => ([], [], true)
  | k + 1, c :: cs =>
    if c = '\n' then ([c], cs, false)
    else
      let r := fgets_read k cs
      (c :: r.1, r.2.1, r.2.2)

/-- `fgets(s, n, file)`: reads at most `n - 1` characters, up to and including a newline.
Returns the characters stored before the terminating NUL, or `none` (NULL) when end of file
is met before any character was read. -/
def fgets (n : Nat) (file : FILE) : Option (List Char) × FILE :=
  let r := fgets_read (n - 1) file.rest
  let file1 : FILE := { rest := r.2.1, eof := file.eof || r.2.2 }
  if r.1 = [] && r.2.2 then (none, file1) else (some r.1, file1)

/-- The value of a run of decimal digits. -/
def decimal_value (ds : List Char) : Nat :=
  ds.foldl (fun acc c => acc * 10 + (c.toNat - 48)) 0

/-- The subject sequence of `strtoul(…, 10)` and of `%u`: after optional white space, an
optional sign and the longest run of decimal digits. Returns (negative, digits). -/
def subject_sequence (s : List Char) : Bool × List Char :=
  match s.dropWhile isspace with
  | '-' :: t => (true, t.takeWhile isdigit)
  | '+' :: t => (false, t.takeWhile isdigit)
  | t => (false, t.takeWhile isdigit)

/-- `UINT_MAX`, and `ULONG_MAX` on the 32-bit PSP. -/
def UINT_MAX : Nat := 4294967295

/-- `strtoul(s, NULL, 10)` with a 32-bit `unsigned long`: 0 when there is no digit,
`ULONG_MAX` when the numeral is out of range, the value negated in the unsigned type
after a minus sign. -/
def strtoul (s : List Char) : Nat :=
  let subj := subject_sequence s
  if subj.2 = [] then 0
  else
    let v := decimal_value subj.2
    if v > UINT_MAX then UINT_MAX
    else if subj.1 then (UINT_MAX + 1 - v) % (UINT_MAX + 1) else v

/-- `sscanf(s, "%u", p)`: `none` when nothing is stored (no digit: matching or input
failure), else the value stored in the 32-bit `unsigned int`. For a numeral above `UINT_MAX`
the C standard does not define the stored value; the model reduces modulo 2^32. -/
def sscanf_u (s : List Char) : Option Nat :=
  let subj := subject_sequence s
  if subj.2 = [] then none
  else
    let v := decimal_value subj.2 % (UINT_MAX + 1)
    some (if subj.1 then (UINT_MAX + 1 - v) % (UINT_MAX + 1) else v)

/-- What `%u` prints: the shortest decimal numeral. -/
def fmt_u (n : Nat) : List Char := Nat.toDigits 10 n

/-- The part of the file system the program sees. -/
structure FileSystem where
  /-- the content of the file at a path that `fopen(path, "r")` can open -/
  file : List Char → Option (List Char)
  /-- whether `fopen(path, "w")` succeeds -/
  writable : List Char → Bool

/-- `fopen(filename, "r")`: NULL when the file cannot be opened. -/
def fopen_r (fs : FileSystem) (filename : List Char) : Option FILE :=
  match fs.file filename with
  | none => none
  | some text => some { rest := text, eof := false }

/-- The file system after a stream opened with `fopen(filename, "w")` received `text`
and was closed. -/
def FileSystem.write (fs : FileSystem) (filename text : List Char) : FileSystem :=
  { fs with file := fun p => if p = filename then some text else fs.file p }

/-! ## Data -/

/-- `enum ConfigOptionType` -/
inductive ConfigOptionType where
  | CONFIG_TYPE_BOOL
  | CONFIG_TYPE_UINT
  | CONFIG_TYPE_FLOAT
  deriving DecidableEq, Repr

/-- The `bool` configuration variables (what a `bool *` of the table can point to). -/
inductive BoolVar where
  | configFullscreen
  deriving DecidableEq, Repr

/-- The `unsigned int` configuration variables. -/
inductive UIntVar where
  | configKeyA | configKeyB | configKeyStart | configKeyL | configKeyR | configKeyZ
  | configKeyCUp | configKeyCDown | configKeyCLeft | configKeyCRight
  | configKeyStickUp | configKeyStickDown | configKeyStickLeft | configKeyStickRight
  | configDeadzone
  deriving DecidableEq, Repr

/-- The `float` configuration variables: the program declares none. -/
inductive FloatVar where

/-- `struct ConfigOption`: the name, and the type tag together with the member of the
union it selects. -/
inductive ConfigOption where
  | bool (name : List Char) (boolValue : BoolVar)
  | uint (name : List Char) (uintValue : UIntVar)
  | float (name : List Char) (floatValue : FloatVar)

/-- The field `name`. -/
def ConfigOption.name : ConfigOption → List Char
  | .bool n _ => n
  | .uint n _ => n
  | .float n _ => n

/-- The field `type`. -/
def ConfigOption.type : ConfigOption → ConfigOptionType
  | .bool _ _ => .CONFIG_TYPE_BOOL
  | .uint _ _ => .CONFIG_TYPE_UINT
  | .float _ _ => .CONFIG_TYPE_FLOAT

/-- The values of the configuration variables. -/
structure Config where
  configFullscreen : Bool
  configKeyA : Nat
  configKeyB : Nat
  configKeyStart : Nat
  configKeyL : Nat
  configKeyR : Nat
  configKeyZ : Nat
  configKeyCUp : Nat
  configKeyCDown : Nat
  configKeyCLeft : Nat
  configKeyCRight : Nat
  configKeyStickUp : Nat
  configKeyStickDown : Nat
  configKeyStickLeft : Nat
  configKeyStickRight : Nat
  configDeadzone : Nat
  deriving DecidableEq, Repr

/-- The initialisers of the configuration variables. -/
def defaults : Config where
  configFullscreen := false
  configKeyA := 0x004000
  configKeyB := 0x008000
  configKeyStart := 0x000008
  configKeyL := 0x001000
  configKeyR := 0x000200
  configKeyZ := 0x000100 ||| 0x002000
  configKeyCUp := 0x000010
  configKeyCDown := 0x000040
  configKeyCLeft := 0x000080
  configKeyCRight := 0x000020
  configKeyStickUp := 0x11
  configKeyStickDown := 0x1F
  configKeyStickLeft := 0x1E
  configKeyStickRight := 0x20
  configDeadzone := 0x20

/-- Reading through a `bool *`. -/
def BoolVar.get (c : Config) : BoolVar → Bool
  | .configFullscreen => c.configFullscreen

/-- Writing through a `bool *`. -/
def BoolVar.set (c : Config) : BoolVar → Bool → Config
  | .configFullscreen, v => { c with configFullscreen := v }

/-- Reading through an `unsigned int *`. -/
def UIntVar.get (c : Config) : UIntVar → Nat
  | .configKeyA => c.configKeyA
  | .configKeyB => c.configKeyB
  | .configKeyStart => c.configKeyStart
  | .configKeyL => c.configKeyL
  | .configKeyR => c.configKeyR
  | .configKeyZ => c.configKeyZ
  | .configKeyCUp => c.configKeyCUp
  | .configKeyCDown => c.configKeyCDown
  | .configKeyCLeft => c.configKeyCLeft
  | .configKeyCRight => c.configKeyCRight
  | .configKeyStickUp => c.configKeyStickUp
  | .configKeyStickDown => c.configKeyStickDown
  | .configKeyStickLeft => c.configKeyStickLeft
  | .configKeyStickRight => c.configKeyStickRight
  | .configDeadzone => c.configDeadzone

/-- Writing through an `unsigned int *`. -/
def UIntVar.set (c : Config) : UIntVar → Nat → Config
  | .configKeyA, v => { c with configKeyA := v }
  | .configKeyB, v => { c with configKeyB := v }
  | .configKeyStart, v => { c with configKeyStart := v }
  | .configKeyL, v => { c with configKeyL := v }
  | .configKeyR, v => { c with configKeyR := v }
  | .configKeyZ, v => { c with configKeyZ := v }
  | .configKeyCUp, v => { c with configKeyCUp := v }
  | .configKeyCDown, v => { c with configKeyCDown := v }
  | .configKeyCLeft, v => { c with configKeyCLeft := v }
  | .configKeyCRight, v => { c with configKeyCRight := v }
  | .configKeyStickUp, v => { c with configKeyStickUp := v }
  | .configKeyStickDown, v => { c with configKeyStickDown := v }
  | .configKeyStickLeft, v => { c with configKeyStickLeft := v }
  | .configKeyStickRight, v => { c with configKeyStickRight := v }
  | .configDeadzone, v => { c with configDeadzone := v }

/-- The table `options[]`. -/
def options : List ConfigOption :=
  [ .bool "fullscreen".toList .configFullscreen,
    .uint "key_a".toList .configKeyA,
    .uint "key_b".toList .configKeyB,
    .uint "key_start".toList .configKeyStart,
    .uint "key_l".toList .configKeyL,
    .uint "key_r".toList .configKeyR,
    .uint "key_z".toList .configKeyZ,
    .uint "key_cup".toList .configKeyCUp,
    .uint "key_cdown".toList .configKeyCDown,
    .uint "key_cleft".toList .configKeyCLeft,
    .uint "key_cright".toList .configKeyCRight,
    .uint "key_stickup".toList .configKeyStickUp,
    .uint "key_stickdown".toList .configKeyStickDown,
    .uint "key_stickleft".toList .configKeyStickLeft,
    .uint "key_stickright".toList .configKeyStickRight,
    .uint "deadzone".toList .configDeadzone ]

/-- What the program can change: the configuration variables, the files, and the text
written to standard output. -/
structure World where
  config : Config
  fs : FileSystem
  stdout : List Char

/-- `printf`/`puts`: appends the formatted text to standard output. -/
def World.print (w : World) (text : List Char) : World :=
  { w with stdout := w.stdout ++ text }

/-! ## `read_file_line` -/

/-- The `while (1)` loop of `read_file_line`. `buffer` is the initialised part of the
allocated memory. Returns NULL (`none`) or the string in the buffer, and the stream. -/
def read_file_line_loop :
    Nat → FILE → List Char → Nat → Nat → Except Fault (Option (List Char) × FILE)
  | 0, _, _, _, _ => .error .out_of_fuel
  | fuel + 1, file, buffer, bufferSize, offset =>
    match fgets (bufferSize - offset) file with
    | (none, file) => .ok (none, file)
    | (some s, file) =>
      -- fgets stored `s` and a NUL at `buffer + offset`
      let buffer := buffer.take offset ++ s ++ [NUL]
      let offset := strlen buffer
      if offset = 0 then .error .assert_offset_positive
      else if buffer[offset]? = some NUL then .ok (some (cstring buffer), file)
      else if buffer[offset - 1]? = some '\n' then
        .ok (some (cstring (buffer.set (offset - 1) NUL)), file)
      else if file.eof then .ok (some (cstring buffer), file)
      else read_file_line_loop fuel file buffer (bufferSize * 2) offset

/-- `read_file_line(file)`. Every turn of the loop that does not return has read at least one
character, so the budget cannot run out. -/
def read_file_line (file : FILE) : Except Fault (Option (List Char) × FILE) :=
  read_file_line_loop (file.rest.length + 1) file [] 64 0

/-! ## Tokenizer -/

/-- `skip_whitespace(str)`: the position of the first non-whitespace character. -/
def skip_whitespace : List Char → List Char
  | [] => []
  | c :: cs => if isspace c then skip_whitespace cs else c :: cs

/-- The loop `while (!isspace(*str) && *str != 0) str++` of `word_split`: the characters
passed over, and the position reached. -/
def word_end : List Char → List Char × List Char
  | [] => ([], [])
  | c :: cs =>
    if isspace c then ([], c :: cs)
    else
      let r := word_end cs
      (c :: r.1, r.2)

/-- `word_split(str)`: returns the word at `str`, as it reads once terminated, and the
pointer to the next word. -/
def word_split (str : List Char) : Except Fault (List Char × List Char) :=
  if (match str with
      | [] => false
      | c :: _ => isspace c) then .error .assert_not_whitespace
  else
    let r := word_end str
    match r.2 with
    | [] => .ok (r.1, [])
    | _ :: next => .ok (r.1, skip_whitespace next)

/-- The loop of `tokenize_string`; the first argument is `maxTokens - count`. -/
def tokenize_loop : Nat → List Char → List (List Char) → Except Fault (List (List Char))
  | 0, _, tokens => .ok tokens
  | n + 1, str, tokens =>
    match str with
    | [] => .ok tokens
    | _ :: _ =>
      match word_split str with
      | .error e => .error e
      | .ok (word, next) => tokenize_loop n next (tokens ++ [word])

/-- `tokenize_string(str, maxTokens, tokens)`: returns the tokens stored; the returned count
is the length of the list. -/
def tokenize_string (str : List Char) (maxTokens : Int) : Except Fault (List (List Char)) :=
  tokenize_loop maxTokens.toNat (skip_whitespace str) []

/-! ## `configfile_save` -/

/-- One turn of the loop of `configfile_save`: the `fprintf` of one option. -/
def save_option (c : Config) : ConfigOption → List Char
  | .bool name p =>
    name ++ " ".toList ++ (if p.get c then "true".toList else "false".toList) ++ "\n".toList
  | .uint name p => name ++ " ".toList ++ fmt_u (p.get c) ++ "\n".toList
  | .float _ p => nomatch p

/-- The loop of `configfile_save` from index `i` on: the text written to the file. -/
def save_loop (c : Config) : List ConfigOption → List Char
  | [] => []
  | option :: rest => save_option c option ++ save_loop c rest

/-- `configfile_save(filename)`. -/
def configfile_save (filename : List Char) (w : World) : World :=
  let w := w.print ("Saving configuration to '".toList ++ filename ++ "'\n".toList)
  if w.fs.writable filename then
    { w with fs := w.fs.write filename (save_loop w.config options) }
  else
    w

/-! ## `configfile_load` -/

/-- The lookup loop: the first option of the table whose name `strcmp`s equal. -/
def find_option (name : List Char) : List ConfigOption → Option ConfigOption
  | [] => none
  | option :: rest => if name = option.name then some option else find_option name rest

/-- The `switch (option->type)` of `configfile_load`: stores the value. -/
def store_value (b : Build) (c : Config) (value : List Char) : ConfigOption → Config
  | .bool _ p =>
    if value = "true".toList then p.set c true
    else if value = "false".toList then p.set c false
    else c
  | .uint _ p =>
    if b.TARGET_PSP then p.set c (strtoul value)
    else
      match sscanf_u value with
      | none => c
      | some v => p.set c v
  | .float _ p => nomatch p

/-- The body of the loop of `configfile_load` for one line read. -/
def load_line (b : Build) (line : List Char) (w : World) : Except Fault World :=
  let p := skip_whitespace line
  match tokenize_string p 2 with
  | .error e => .error e
  | .ok [] => .ok w
  | .ok [tok0, tok1] =>
    match find_option tok0 options with
    | none => .ok (w.print ("unknown option '".toList ++ tok0 ++ "'\n".toList))
    | some option =>
      let w := { w with config := store_value b w.config tok1 option }
      if b.DEBUG then
        .ok (w.print ("option: '".toList ++ tok0 ++ "', value: '".toList ++ tok1 ++
          "'\n".toList))
      else .ok w
  | .ok _ => .ok (w.print "error: expected value\n".toList)

/-- The loop `while ((line = read_file_line(file)) != NULL)`. -/
def load_loop (b : Build) : Nat → FILE → World → Except Fault World
  | 0, _, _ => .error .out_of_fuel
  | fuel + 1, file, w =>
    match read_file_line file with
    | .error e => .error e
    | .ok (none, _) => .ok w
    | .ok (some line, file) =>
      match load_line b line w with
      | .error e => .error e
      | .ok w => load_loop b fuel file w

/-- `configfile_load(filename)`. Every line read takes at least one character from the
stream, so the budget cannot run out. -/
def configfile_load (b : Build) (filename : List Char) (w : World) : Except Fault World :=
  let w := w.print ("Loading configuration from '".toList ++ filename ++ "'\n".toList)
  match fopen_r w.fs filename with
  | none =>
    let w := w.print ("Config file '".toList ++ filename ++ "' not found. Creating it.\n".toList)
    .ok (configfile_save filename w)
  | some file => load_loop b (file.rest.length + 1) file w

/-! ## Auxiliary notions used by the theorems -/

/-- The loop of `configfile_load` run on a freshly opened stream holding `text`. -/
def load_text (b : Build) (text : List Char) (w : World) : Except Fault World :=
  load_loop b (text.length + 1) { rest := text, eof := false } w

/-- The text is empty or ends with a newline. -/
def LineClosed (t : List Char) : Prop := t.getLast? = none ∨ t.getLast? = some '\n'

instance (t : List Char) : Decidable (LineClosed t) := by
  unfold LineClosed; infer_instance

/-- Every character is white space. -/
def AllSpace (ws : List Char) : Prop := ∀ c ∈ ws, isspace c = true

/-- No character is white space. -/
def NoSpace (t : List Char) : Prop := ∀ c ∈ t, isspace c = false

/-- No character is NUL. -/
def NoNUL (t : List Char) : Prop := ∀ c ∈ t, c ≠ NUL

/-- No character is a newline. -/
def NoNewline (t : List Char) : Prop := ∀ c ∈ t, c ≠ '\n'

/-- The text is empty or starts with white space. -/
def SpaceOrEnd : List Char → Prop
  | [] => True
  | c :: _ => isspace c = true

instance (ws : List Char) : Decidable (AllSpace ws) := by
  unfold AllSpace; infer_instance

instance (t : List Char) : Decidable (NoSpace t) := by
  unfold NoSpace; infer_instance

instance (t : List Char) : Decidable (NoNUL t) := by
  unfold NoNUL; infer_instance

instance (t : List Char) : Decidable (NoNewline t) := by
  unfold NoNewline; infer_instance

instance (r : List Char) : Decidable (SpaceOrEnd r) := by
  cases r <;> unfold SpaceOrEnd <;> infer_instance

/-- A word: not empty, without white space and without NUL. -/
def IsWord (t : List Char) : Prop := t ≠ [] ∧ NoSpace t ∧ NoNUL t

instance (t : List Char) : Decidable (IsWord t) := by
  unfold IsWord; infer_instance

/-- What the loop body of `configfile_load` does with a line of two tokens. -/
def apply_pair (b : Build) (tok0 tok1 : List Char) (w : World) : World :=
  match find_option tok0 options with
  | none => w.print ("unknown option '".toList ++ tok0 ++ "'\n".toList)
  | some option =>
    let w1 := { w with config := store_value b w.config tok1 option }
    if b.DEBUG then
      w1.print ("option: '".toList ++ tok0 ++ "', value: '".toList ++ tok1 ++ "'\n".toList)
    else w1

/-- Every `unsigned int` variable holds a value that fits 32 bits. -/
def Config.Valid (c : Config) : Prop := ∀ p : UIntVar, p.get c ≤ UINT_MAX

/-- Copies the variable that `option` points to from `src` into `c`. -/
def copy_value (src : Config) (c : Config) : ConfigOption → Config
  | .bool _ p => p.set c (p.get src)
  | .uint _ p => p.set c (p.get src)
  | .float _ p => nomatch p

/-- Copies the variables of all of `opts`, in order. -/
def copy_values (src : Config) : List ConfigOption → Config → Config
  | [], c => c
  | option :: rest, c => copy_values src rest (copy_value src c option)

/-- A decimal numeral: a non-empty run of decimal digits. -/
def IsNumeral (ds : List Char) : Prop := ds ≠ [] ∧ ∀ c ∈ ds, isdigit c = true

instance (ds : List Char) : Decidable (IsNumeral ds) := by
  unfold IsNumeral; infer_instance

/-! ## The save format in the specification's words -/

/-- A boolean value as the specification serialises it: `true` or `false`. -/
def spec_bool (v : Bool) : List Char := if v then "true".toList else "false".toList

/-- The lines of a saved file as the specification lists them: the 16 names in the fixed
table order, each followed by one space and the value. -/
def spec_save_lines (c : Config) : List (List Char) :=
  [ "fullscreen ".toList ++ spec_bool c.configFullscreen,
    "key_a ".toList ++ fmt_u c.configKeyA,
    "key_b ".toList ++ fmt_u c.configKeyB,
    "key_start ".toList ++ fmt_u c.configKeyStart,
    "key_l ".toList ++ fmt_u c.configKeyL,
    "key_r ".toList ++ fmt_u c.configKeyR,
    "key_z ".toList ++ fmt_u c.configKeyZ,
    "key_cup ".toList ++ fmt_u c.configKeyCUp,
    "key_cdown ".toList ++ fmt_u c.configKeyCDown,
    "key_cleft ".toList ++ fmt_u c.configKeyCLeft,
    "key_cright ".toList ++ fmt_u c.configKeyCRight,
    "key_stickup ".toList ++ fmt_u c.configKeyStickUp,
    "key_stickdown ".toList ++ fmt_u c.configKeyStickDown,
    "key_stickleft ".toList ++ fmt_u c.configKeyStickLeft,
    "key_stickright ".toList ++ fmt_u c.configKeyStickRight,
    "deadzone ".toList ++ fmt_u c.configDeadzone ]

/-- A text made of the given lines, each terminated by a newline. -/
def unlines : List (List Char) → List Char
  | [] => []
  | l :: ls => l ++ '\n' :: unlines ls

/-- The file `configfile_save` writes for the compiled-in defaults. -/
def default_file : List Char :=
  ("fullscreen false\nkey_a 16384\nkey_b 32768\nkey_start 8\nkey_l 4096\nkey_r 512\n" ++
   "key_z 8448\nkey_cup 16\nkey_cdown 64\nkey_cleft 128\nkey_cright 32\n" ++
   "key_stickup 17\nkey_stickdown 31\nkey_stickleft 30\nkey_stickright 32\n" ++
   "deadzone 32\n").toList

/-- A configuration that differs from the defaults in every variable, with extreme values. -/
def sample_config : Config where
  configFullscreen := true
  configKeyA := 4294967295
  configKeyB := 0
  configKeyStart := 1
  configKeyL := 10
  configKeyR := 99
  configKeyZ := 100
  configKeyCUp := 4294967294
  configKeyCDown := 65536
  configKeyCLeft := 1000000000
  configKeyCRight := 999999999
  configKeyStickUp := 7
  configKeyStickDown := 42
  configKeyStickLeft := 2147483648
  configKeyStickRight := 305419896
  configDeadzone := 4096

/-- A file system without files in which every path can be created. -/
def empty_fs : FileSystem where
  file := fun _ => none
  writable := fun _ => true

/-- A file system without files in which no path can be created. -/
def readonly_fs : FileSystem where
  file := fun _ => none
  writable := fun _ => false

/-- A file system whose every path holds `text`. -/
def fs_with (text : List Char) : FileSystem where
  file := fun _ => some text
  writable := fun _ => true

/-- The name used for the configuration file in the examples. -/
def cfg : List Char := "sm64config.txt".toList

/-- The token starts with a decimal digit, or with a sign followed by a decimal digit: what
`%u` and `strtoul` can convert. -/
def starts_numeral : List Char → Bool
  | [] => false
  | c :: rest =>
    isdigit c ||
      ((c = '-' || c = '+') &&
        (match rest with
         | [] => false
         | d :: _ => isdigit d))

/-- The world `w` after a run that started from `bare w.config` ended in `r`: the variables
of `r`, the files of `w`, and the output of `r` after that of `w`. -/
def World.absorb (w r : World) : World :=
  { config := r.config, fs := w.fs, stdout := w.stdout ++ r.stdout }

/-- The world with the given variables, no file and no output. -/
def bare (c : Config) : World := { config := c, fs := empty_fs, stdout := [] }

/-- The whitespace-delimited tokens of a text. -/
def words (text : List Char) : List (List Char) :=
  (text.splitOnP isspace).filter (fun t => !t.isEmpty)

/-- The line of 68 characters `key_a 5` after 60 spaces, with its newline. -/
def long_line : List Char := List.replicate 60 ' ' ++ "key_a 5\n".toList

/-- A file whose only line is `key_a 5` after 63 letters `x`, with its newline. -/
def glued_line : List Char := List.replicate 63 'x' ++ "key_a 5\n".toList

/-- The line `foo`, 60 spaces, `key_a 7`: its first token is not an option name. -/
def long_unknown_line : List Char := "foo".toList ++ List.replicate 60 ' ' ++ "key_a 7".toList

/-- The line `key_a 1`. -/
def short_line : List Char := "key_a 1".toList

/-- The line of 63 letters `x` directly followed by `key_a 2`. -/
def glued_line_2 : List Char := List.replicate 63 'x' ++ "key_a 2".toList

/-- The text of `k` reports `error: expected value`. -/
def reports : Nat → List Char
  | 0 => []
  | k + 1 => "error: expected value\n".toList ++ reports k

/-- The line `key_a`, 57 spaces, `77`: 64 characters. -/
def spaced_assignment : List Char := "key_a".toList ++ List.replicate 57 ' ' ++ "77".toList

/-- The line `key_a`, one space, and the numeral made of 57 zeros and `005`. -/
def padded_assignment : List Char := "key_a ".toList ++ List.replicate 57 '0' ++ "005".toList

/-- The line `foo`, 60 spaces, `key_a 16384`: its first token is not an option name. -/
def long_unknown_default : List Char :=
  "foo".toList ++ List.replicate 60 ' ' ++ "key_a 16384".toList

end Configfile

namespace Controller

/-! ## `controller_entry_point.c` -/

/-- Modelled from the spec: `OSContPad`, declared in the libultra headers that are not part
of the sources here: the button bitmask (`u16`), the signed stick axes (`s8`) and the
error/status code (`u8`). -/
structure OSContPad where
  button : Nat
  stick_x : Int
  stick_y : Int
  errnum : Nat
  deriving DecidableEq, Repr

/-- Modelled from the spec: `struct ControllerAPI`, declared in a header that is not part of
the sources here: a backend is the pair of capabilities `init()` and `read(pad)`. `σ` is
the state of the devices and of the backends; `read` receives the pad by reference. -/
structure ControllerAPI (σ : Type) where
  init : σ → σ
  read : OSContPad → σ → OSContPad × σ

/-- The `for` loop of `osContInit`, from index `i` on. -/
def osContInit_loop {σ : Type} : List (ControllerAPI σ) → σ → σ
  | [], s => s
  | api :: rest, s => osContInit_loop rest (api.init s)

/-- `osContInit(mq, controllerBits, status)`: takes the value `*controllerBits` had and the
state; returns the return value, `*controllerBits` and the state. The array `controller_implementations` depends on the build target and is
a parameter. -/
def osContInit {σ : Type} (controller_implementations : List (ControllerAPI σ))
    (_controllerBits : Nat) (s : σ) : Int × Nat × σ :=
  let s := osContInit_loop controller_implementations s
  let controllerBits := 1
  (0, controllerBits, s)

/-- `osContStartReadData(mesg)`. -/
def osContStartReadData : Int := 0

/-- The `for` loop of `osContGetReadData`, from index `i` on. -/
def osContGetReadData_loop {σ : Type} : List (ControllerAPI σ) → OSContPad → σ → OSContPad × σ
  | [], pad, s => (pad, s)
  | api :: rest, pad, s =>
    let r := api.read pad s
    osContGetReadData_loop rest r.1 r.2

/-- `osContGetReadData(pad)`: returns `*pad` and the state. -/
def osContGetReadData {σ : Type} (controller_implementations : List (ControllerAPI σ))
    (pad : OSContPad) (s : σ) : OSContPad × σ :=
  let pad := { pad with button := 0 }
  let pad := { pad with stick_x := 0 }
  let pad := { pad with stick_y := 0 }
  let pad := { pad with errnum := 0 }
  osContGetReadData_loop controller_implementations pad s

/-! ## The merge discipline in the specification's words -/

/-- What one backend contributes in a poll: the mask it ORs into the buttons, and for each
of the stick axes and the status either nothing or the value it writes. -/
structure Contribution where
  mask : Nat
  stick_x : Option Int
  stick_y : Option Int
  errnum : Option Nat
  deriving DecidableEq, Repr

/-- The pad after a backend applied its contribution by the discipline: buttons ORed,
stick and status overwritten when the backend writes them. -/
def Contribution.apply (c : Contribution) (pad : OSContPad) : OSContPad :=
  { button := pad.button ||| c.mask,
    stick_x := c.stick_x.getD pad.stick_x,
    stick_y := c.stick_y.getD pad.stick_y,
    errnum := c.errnum.getD pad.errnum }

/-- The backend's `read` follows the discipline with contribution `c`. -/
def Follows {σ : Type} (api : ControllerAPI σ) (c : Contribution) : Prop :=
  ∀ pad s, (api.read pad s).1 = c.apply pad

/-- The bitwise OR of all masks. -/
def or_masks : List Contribution → Nat
  | [] => 0
  | c :: cs => c.mask ||| or_masks cs

/-- The value written by the last element that wrote one, `d` if none did. -/
def last_written {α : Type} (d : α) : List (Option α) → α
  | [] => d
  | none :: rest => last_written d rest
  | some v :: rest => last_written v rest

/-- The all-zero pad. -/
def zero_pad : OSContPad := { button := 0, stick_x := 0, stick_y := 0, errnum := 0 }

/-- A mock backend without state that applies a fixed contribution. -/
def mock (c : Contribution) : ControllerAPI Unit where
  init := fun s => s
  read := fun pad s => (c.apply pad, s)

/-- Mock backend A of the specification: bit 0x1 and stick (5,5). -/
def backend_A : Contribution := { mask := 0x1, stick_x := some 5, stick_y := some 5, errnum := none }

/-- Mock backend B of the specification: bit 0x2 and stick (0,0). -/
def backend_B : Contribution := { mask := 0x2, stick_x := some 0, stick_y := some 0, errnum := none }

/-! ## Observing the calls -/

/-- The backend `api` with a call log added to the state: `init` records the number `i`
and then does what `api.init` does; `read` is that of `api`. -/
def with_log {σ : Type} (i : Nat) (api : ControllerAPI σ) : ControllerAPI (List Nat × σ) where
  init := fun p => (p.1 ++ [i], api.init p.2)
  read := fun pad p => ((api.read pad p.2).1, (p.1, (api.read pad p.2).2))

/-- The backends of a list, each logging its position in the list, counted from `i`. -/
def number_from {σ : Type} (i : Nat) : List (ControllerAPI σ) → List (ControllerAPI (List Nat × σ))
  | [] => []
  | api :: rest => with_log i api :: number_from (i + 1) rest

/-- A backend that leaves the pad untouched and counts its polls in the state. -/
def absent_device : ControllerAPI Nat where
  init := fun s => s
  read := fun pad s => (pad, s + 1)

/-- A backend that ORs a mask into the buttons and does not look at the state. -/
def pressing (mask : Nat) : ControllerAPI Nat where
  init := fun s => s
  read := fun pad s => ({ pad with button := pad.button ||| mask }, s)

end Controller

/-! # Theorems: configuration file -/

namespace Configfile


theorem cstring_append_NUL (s : List Char) : cstring (s ++ [NUL]) = cstring s := by
  induction s with
  | nil => simp [cstring, NUL]
  | cons c s ih =>
    by_cases h : c = NUL
    · simp [cstring, h]
    · simp only [cstring] at ih
      simp [cstring, h, ih]

theorem getElem?_strlen_append_NUL (s : List Char) :
    (s ++ [NUL])[strlen (s ++ [NUL])]? = some NUL := by
  induction s with
  | nil => simp [strlen, NUL]
  | cons c s ih =>
    by_cases h : c = NUL
    · simp [strlen, h]
    · simp only [strlen] at ih
      simp [strlen, h, ih]

theorem strlen_append_NUL (s : List Char) : strlen (s ++ [NUL]) = (cstring s).length := by
  have := cstring_append_NUL s
  simp only [cstring] at this
  simp [strlen, cstring, this]

theorem read_file_line_eq (file : FILE) :
    read_file_line file =
      match fgets 64 file with
      | (none, f) => .ok (none, f)
      | (some s, f) =>
        if cstring s = [] then .error .assert_offset_positive else .ok (some (cstring s), f) := by
  unfold read_file_line read_file_line_loop
  rcases hf : fgets (64 - 0) file with ⟨_ | s, f⟩
  · simp [hf]
  · have h64 : fgets 64 file = (some s, f) := hf
    have hN : (s ++ [NUL])[(cstring s).length]? = some NUL := by
      rw [← strlen_append_NUL]; exact getElem?_strlen_append_NUL s
    simp only [h64, List.take_zero, List.nil_append, strlen_append_NUL, cstring_append_NUL,
      hN, List.length_eq_zero, if_true]

theorem fgets_read_append (k : Nat) (text : List Char) :
    (fgets_read k text).1 ++ (fgets_read k text).2.1 = text := by
  induction k generalizing text with
  | zero => simp [fgets_read]
  | succ k ih =>
    cases text with
    | nil => simp [fgets_read]
    | cons c t =>
      by_cases h : c = '\n'
      · simp [fgets_read, h]
      · simp [fgets_read, h, ih]

theorem fgets_read_cons_ne_nil (k : Nat) (c : Char) (t : List Char) :
    (fgets_read (k + 1) (c :: t)).1 ≠ [] := by
  by_cases h : c = '\n' <;> simp [fgets_read, h]

theorem fgets_read_rest_length (k : Nat) (c : Char) (t : List Char) :
    (fgets_read (k + 1) (c :: t)).2.1.length < (c :: t).length := by
  have h1 := fgets_read_append (k + 1) (c :: t)
  have h2 := fgets_read_cons_ne_nil k c t
  have h3 := congrArg List.length h1
  rw [List.length_append] at h3
  have h4 : 0 < (fgets_read (k + 1) (c :: t)).1.length := List.length_pos.mpr h2
  omega

theorem fgets_nil (e : Bool) :
    fgets 64 { rest := [], eof := e } = (none, { rest := [], eof := true }) := by
  simp [fgets, fgets_read]

theorem fgets_cons (e : Bool) (c : Char) (t : List Char) :
    fgets 64 { rest := c :: t, eof := e } =
      (some (fgets_read 63 (c :: t)).1,
        { rest := (fgets_read 63 (c :: t)).2.1, eof := e || (fgets_read 63 (c :: t)).2.2 }) := by
  have h := fgets_read_cons_ne_nil 62 c t
  simp [fgets, h]

theorem load_loop_nil (b : Build) (fuel : Nat) (e : Bool) (w : World) :
    load_loop b (fuel + 1) { rest := [], eof := e } w = .ok w := by
  simp [load_loop, read_file_line_eq, fgets_nil]

theorem load_loop_cons (b : Build) (fuel : Nat) (e : Bool) (c : Char) (t : List Char)
    (w : World) :
    load_loop b (fuel + 1) { rest := c :: t, eof := e } w =
      if cstring (fgets_read 63 (c :: t)).1 = [] then .error .assert_offset_positive
      else
        match load_line b (cstring (fgets_read 63 (c :: t)).1) w with
        | .error err => .error err
        | .ok w1 =>
          load_loop b fuel
            { rest := (fgets_read 63 (c :: t)).2.1, eof := e || (fgets_read 63 (c :: t)).2.2 } w1 := by
  rw [load_loop, read_file_line_eq, fgets_cons]
  by_cases h : cstring (fgets_read 63 (c :: t)).1 = []
  · simp [h]
  · simp [h]

theorem load_loop_fuel (b : Build) :
    ∀ (fuel1 fuel2 : Nat) (text : List Char) (e1 e2 : Bool) (w : World),
      text.length < fuel1 → text.length < fuel2 →
      load_loop b fuel1 { rest := text, eof := e1 } w =
        load_loop b fuel2 { rest := text, eof := e2 } w := by
  intro fuel1
  induction fuel1 with
  | zero => intro fuel2 text e1 e2 w h1; omega
  | succ n ih =>
    intro fuel2 text e1 e2 w h1 h2
    cases fuel2 with
    | zero => omega
    | succ m =>
      cases text with
      | nil => rw [load_loop_nil, load_loop_nil]
      | cons c t =>
        rw [load_loop_cons, load_loop_cons]
        have hlen : (fgets_read 63 (c :: t)).2.1.length < (c :: t).length :=
          fgets_read_rest_length 62 c t
        split
        · rfl
        · split
          · rfl
          · apply ih <;> omega

theorem load_loop_eq_load_text (b : Build) (fuel : Nat) (text : List Char) (e : Bool)
    (w : World) (h : text.length < fuel) :
    load_loop b fuel { rest := text, eof := e } w = load_text b text w :=
  load_loop_fuel b fuel (text.length + 1) text e false w h (Nat.lt_succ_self _)

theorem load_text_nil (b : Build) (w : World) : load_text b [] w = .ok w :=
  load_loop_nil b _ _ w

theorem load_text_cons (b : Build) (c : Char) (t : List Char) (w : World) :
    load_text b (c :: t) w =
      if cstring (fgets_read 63 (c :: t)).1 = [] then .error .assert_offset_positive
      else
        match load_line b (cstring (fgets_read 63 (c :: t)).1) w with
        | .error err => .error err
        | .ok w1 => load_text b (fgets_read 63 (c :: t)).2.1 w1 := by
  rw [load_text, load_loop_cons]
  have hlen : (fgets_read 63 (c :: t)).2.1.length < (c :: t).length :=
          fgets_read_rest_length 62 c t
  split
  · rfl
  · split
    · rfl
    · apply load_loop_eq_load_text
      simp only [List.length_cons] at hlen ⊢
      omega


theorem LineClosed.tail {c : Char} {t : List Char} (h : LineClosed (c :: t)) (ht : t ≠ []) :
    LineClosed t := by
  cases t with
  | nil => exact absurd rfl ht
  | cons d t => simpa [LineClosed, List.getLast?_cons_cons] using h

theorem LineClosed.tail_ne_nil {c : Char} {t : List Char} (h : LineClosed (c :: t))
    (hc : c ≠ '\n') : t ≠ [] := by
  intro ht
  subst ht
  simp [LineClosed] at h
  exact hc h

theorem LineClosed.tail' {c : Char} {t : List Char} (h : LineClosed (c :: t)) :
    LineClosed t := by
  cases t with
  | nil => simp [LineClosed]
  | cons d t => exact h.tail (by simp)

theorem fgets_read_closed (k : Nat) :
    ∀ (pre post : List Char), pre ≠ [] → LineClosed pre →
      fgets_read (k + 1) (pre ++ post) =
        ((fgets_read (k + 1) pre).1, (fgets_read (k + 1) pre).2.1 ++ post, false) ∧
      LineClosed (fgets_read (k + 1) pre).2.1 := by
  induction k with
  | zero =>
    intro pre post hne hcl
    cases pre with
    | nil => exact absurd rfl hne
    | cons c t =>
      by_cases h : c = '\n'
      · simp only [List.cons_append, fgets_read, h, if_true]
        rw [h] at hcl
        exact ⟨rfl, hcl.tail'⟩
      · simp only [List.cons_append, fgets_read, h, if_false]
        exact ⟨rfl, hcl.tail'⟩
  | succ k ih =>
    intro pre post hne hcl
    cases pre with
    | nil => exact absurd rfl hne
    | cons c t =>
      by_cases h : c = '\n'
      · simp only [List.cons_append, fgets_read, h, if_true]
        rw [h] at hcl
        exact ⟨rfl, hcl.tail'⟩
      · have ht := hcl.tail_ne_nil h
        obtain ⟨h1, h2⟩ := ih t post ht (hcl.tail ht)
        rw [List.cons_append, fgets_read, if_neg h, h1]
        rw [fgets_read, if_neg h]
        exact ⟨rfl, h2⟩

theorem load_text_append_aux (b : Build) (post : List Char) :
    ∀ (n : Nat) (pre : List Char) (w : World), pre.length ≤ n → LineClosed pre →
      load_text b (pre ++ post) w =
        match load_text b pre w with
        | .error e => .error e
        | .ok w1 => load_text b post w1 := by
  intro n
  induction n with
  | zero =>
    intro pre w hlen _
    have : pre = [] := List.length_eq_zero.mp (Nat.le_zero.mp hlen)
    subst this
    simp [load_text_nil]
  | succ n ih =>
    intro pre w hlen hcl
    cases pre with
    | nil => simp [load_text_nil]
    | cons c t =>
      have h12 : fgets_read 63 ((c :: t) ++ post) =
            ((fgets_read 63 (c :: t)).1, (fgets_read 63 (c :: t)).2.1 ++ post, false) ∧
          LineClosed (fgets_read 63 (c :: t)).2.1 :=
        fgets_read_closed 62 (c :: t) post (by simp) hcl
      obtain ⟨h1, h2⟩ := h12
      have hlt : (fgets_read 63 (c :: t)).2.1.length < (c :: t).length :=
        fgets_read_rest_length 62 c t
      rw [List.cons_append, load_text_cons, load_text_cons]
      rw [← List.cons_append, h1]
      by_cases hz : cstring (fgets_read 63 (c :: t)).1 = []
      · simp only [hz, if_true]
      · simp only [hz, if_false]
        cases hl : load_line b (cstring (fgets_read 63 (c :: t)).1) w with
        | error e => rfl
        | ok w1 =>
          simp only []
          apply ih _ w1 _ h2
          simp only [List.length_cons] at hlt hlen
          omega

/-- Loading is sequential: a text that ends with a newline, followed by more text. -/
theorem load_text_append (b : Build) (pre post : List Char) (w : World)
    (h : LineClosed pre) :
    load_text b (pre ++ post) w =
      match load_text b pre w with
      | .error e => .error e
      | .ok w1 => load_text b post w1 :=
  load_text_append_aux b post pre.length pre w (Nat.le_refl _) h

/-! ### Tokenizer -/

theorem isspace_newline : isspace '\n' = true := by decide

theorem skip_whitespace_allspace (ws r : List Char) (h : AllSpace ws) :
    skip_whitespace (ws ++ r) = skip_whitespace r := by
  induction ws with
  | nil => rfl
  | cons c ws ih =>
    have hc : isspace c = true := h c (by simp)
    have hws : AllSpace ws := fun d hd => h d (by simp [hd])
    simp [skip_whitespace, hc, ih hws]

theorem skip_whitespace_word (t r : List Char) (hne : t ≠ []) (h : NoSpace t) :
    skip_whitespace (t ++ r) = t ++ r := by
  cases t with
  | nil => exact absurd rfl hne
  | cons c t =>
    have hc : isspace c = false := h c (by simp)
    simp [skip_whitespace, hc]

theorem skip_whitespace_idem (s : List Char) :
    skip_whitespace (skip_whitespace s) = skip_whitespace s := by
  induction s with
  | nil => rfl
  | cons c s ih =>
    by_cases hc : isspace c = true
    · simp [skip_whitespace, hc, ih]
    · simp [skip_whitespace, hc]

theorem word_end_word (t r : List Char) (h : NoSpace t) (hr : SpaceOrEnd r) :
    word_end (t ++ r) = (t, r) := by
  induction t with
  | nil =>
    cases r with
    | nil => rfl
    | cons c r =>
      have hc : isspace c = true := hr
      simp [word_end, hc]
  | cons c t ih =>
    have hc : isspace c = false := h c (by simp)
    have ht : NoSpace t := fun d hd => h d (by simp [hd])
    simp [word_end, hc, ih ht]

theorem word_split_word (t r : List Char) (hne : t ≠ []) (h : NoSpace t) (hr : SpaceOrEnd r) :
    word_split (t ++ r) = .ok (t, skip_whitespace r) := by
  cases t with
  | nil => exact absurd rfl hne
  | cons c t =>
    have hc : isspace c = false := h c (by simp)
    have hw := word_end_word (c :: t) r h hr
    simp only [List.cons_append] at hw
    simp only [word_split, List.cons_append, hc, hw]
    cases r with
    | nil => simp [skip_whitespace]
    | cons d r =>
      have hd : isspace d = true := hr
      simp [skip_whitespace, hd]

theorem tokenize_string_none (ws : List Char) (n : Int) (h : AllSpace ws) :
    tokenize_string (skip_whitespace ws) n = .ok [] := by
  have h1 : skip_whitespace ws = [] := by
    have := skip_whitespace_allspace ws [] h
    simpa [skip_whitespace] using this
  rw [tokenize_string, h1]
  cases n.toNat <;> simp [tokenize_loop, skip_whitespace]

theorem tokenize_string_one (ws1 t0 ws2 : List Char) (h1 : AllSpace ws1) (hne : t0 ≠ [])
    (h0 : NoSpace t0) (h2 : AllSpace ws2) :
    tokenize_string (skip_whitespace (ws1 ++ t0 ++ ws2)) 2 = .ok [t0] := by
  have hsp : SpaceOrEnd ws2 := by
    cases ws2 with
    | nil => trivial
    | cons c r => exact h2 c (by simp)
  have hz : skip_whitespace ws2 = [] := by
    have := skip_whitespace_allspace ws2 [] h2
    simpa [skip_whitespace] using this
  rw [List.append_assoc, skip_whitespace_allspace _ _ h1, skip_whitespace_word _ _ hne h0]
  rw [tokenize_string, skip_whitespace_word _ _ hne h0]
  cases t0 with
  | nil => exact absurd rfl hne
  | cons c t =>
    have hw := word_split_word (c :: t) ws2 hne h0 hsp
    simp only [List.cons_append] at hw
    simp [tokenize_loop, hw, hz]

theorem tokenize_string_two (ws1 t0 ws2 t1 r : List Char) (h1 : AllSpace ws1) (hne0 : t0 ≠ [])
    (h0 : NoSpace t0) (h2 : AllSpace ws2) (hne2 : ws2 ≠ []) (hne1 : t1 ≠ [])
    (h3 : NoSpace t1) (hr : SpaceOrEnd r) :
    tokenize_string (skip_whitespace (ws1 ++ t0 ++ ws2 ++ t1 ++ r)) 2 = .ok [t0, t1] := by
  have hsp : SpaceOrEnd (ws2 ++ (t1 ++ r)) := by
    cases ws2 with
    | nil => exact absurd rfl hne2
    | cons c ws => exact h2 c (by simp)
  have e : ws1 ++ t0 ++ ws2 ++ t1 ++ r = ws1 ++ (t0 ++ (ws2 ++ (t1 ++ r))) := by
    simp [List.append_assoc]
  rw [e, skip_whitespace_allspace _ _ h1, skip_whitespace_word _ _ hne0 h0]
  rw [tokenize_string, skip_whitespace_word _ _ hne0 h0]
  have hw0 := word_split_word t0 (ws2 ++ (t1 ++ r)) hne0 h0 hsp
  rw [skip_whitespace_allspace _ _ h2, skip_whitespace_word _ _ hne1 h3] at hw0
  have hw1 := word_split_word t1 r hne1 h3 hr
  cases t0 with
  | nil => exact absurd rfl hne0
  | cons c t =>
    cases t1 with
    | nil => exact absurd rfl hne1
    | cons d u =>
      simp only [List.cons_append] at hw0 hw1
      simp [tokenize_loop, hw0, hw1]

/-! ### One line -/

theorem load_line_none (b : Build) (ws : List Char) (w : World) (h : AllSpace ws) :
    load_line b ws w = .ok w := by
  simp only [load_line, skip_whitespace_idem, tokenize_string_none ws 2 h]

theorem load_line_one (b : Build) (ws1 t0 ws2 : List Char) (w : World) (h1 : AllSpace ws1)
    (hne : t0 ≠ []) (h0 : NoSpace t0) (h2 : AllSpace ws2) :
    load_line b (ws1 ++ t0 ++ ws2) w = .ok (w.print "error: expected value\n".toList) := by
  simp only [load_line, skip_whitespace_idem, tokenize_string_one ws1 t0 ws2 h1 hne h0 h2]

theorem load_line_two (b : Build) (ws1 t0 ws2 t1 r : List Char) (w : World)
    (h1 : AllSpace ws1) (hne0 : t0 ≠ []) (h0 : NoSpace t0) (h2 : AllSpace ws2)
    (hne2 : ws2 ≠ []) (hne1 : t1 ≠ []) (h3 : NoSpace t1) (hr : SpaceOrEnd r) :
    load_line b (ws1 ++ t0 ++ ws2 ++ t1 ++ r) w = .ok (apply_pair b t0 t1 w) := by
  simp only [load_line, skip_whitespace_idem,
    tokenize_string_two ws1 t0 ws2 t1 r h1 hne0 h0 h2 hne2 hne1 h3 hr, apply_pair]
  cases find_option t0 options with
  | none => rfl
  | some o => cases b.DEBUG <;> rfl

/-! ### Lines that fit the buffer -/

theorem cstring_of_NoNUL (s : List Char) (h : NoNUL s) : cstring s = s := by
  induction s with
  | nil => rfl
  | cons c s ih =>
    have hc : c ≠ NUL := h c (by simp)
    have hs : NoNUL s := fun d hd => h d (by simp [hd])
    simp only [cstring] at ih
    simp [cstring, hc, ih hs]

theorem fgets_read_line (k : Nat) (line rest : List Char) (hn : NoNewline line)
    (hlen : line.length < k) :
    fgets_read k (line ++ '\n' :: rest) = (line ++ ['\n'], rest, false) := by
  induction line generalizing k with
  | nil =>
    cases k with
    | zero => simp at hlen
    | succ k => simp [fgets_read]
  | cons c line ih =>
    cases k with
    | zero => simp at hlen
    | succ k =>
      have hc : c ≠ '\n' := hn c (by simp)
      have hl : NoNewline line := fun d hd => hn d (by simp [hd])
      have hk : line.length < k := by simp only [List.length_cons] at hlen; omega
      simp [fgets_read, hc, ih k hl hk]

theorem fgets_read_last (k : Nat) (line : List Char) (hn : NoNewline line)
    (hlen : line.length < k) :
    fgets_read k line = (line, [], true) := by
  induction line generalizing k with
  | nil =>
    cases k with
    | zero => simp at hlen
    | succ k => simp [fgets_read]
  | cons c line ih =>
    cases k with
    | zero => simp at hlen
    | succ k =>
      have hc : c ≠ '\n' := hn c (by simp)
      have hl : NoNewline line := fun d hd => hn d (by simp [hd])
      have hk : line.length < k := by simp only [List.length_cons] at hlen; omega
      simp [fgets_read, hc, ih k hl hk]

theorem NoNUL_append_newline (line : List Char) (hz : NoNUL line) : NoNUL (line ++ ['\n']) := by
  intro c hc
  rcases List.mem_append.mp hc with h | h
  · exact hz c h
  · have : c = '\n' := by simpa using h
    rw [this]; decide

/-- A line of at most 62 characters followed by its newline is read whole (newline
included) and handed to the loop body. -/
theorem load_text_line (b : Build) (line rest : List Char) (w : World) (hn : NoNewline line)
    (hz : NoNUL line) (hlen : line.length ≤ 62) :
    load_text b (line ++ '\n' :: rest) w =
      match load_line b (line ++ ['\n']) w with
      | .error e => .error e
      | .ok w1 => load_text b rest w1 := by
  have hr := fgets_read_line 63 line rest hn (by omega)
  have hc := cstring_of_NoNUL _ (NoNUL_append_newline line hz)
  cases hl : line ++ '\n' :: rest with
  | nil => simp at hl
  | cons c t =>
    rw [load_text_cons, ← hl, hr]
    simp only [hc]
    rw [if_neg (by simp)]

/-- A last line of at most 62 characters without newline is read whole. -/
theorem load_text_last (b : Build) (line : List Char) (w : World) (hne : line ≠ [])
    (hn : NoNewline line) (hz : NoNUL line) (hlen : line.length ≤ 62) :
    load_text b line w = load_line b line w := by
  have hr := fgets_read_last 63 line hn (by omega)
  have hc := cstring_of_NoNUL _ hz
  cases hl : line with
  | nil => exact absurd hl hne
  | cons c t =>
    rw [load_text_cons, ← hl, hr]
    simp only [hc]
    rw [if_neg hne]
    cases load_line b line w with
    | error e => rfl
    | ok w1 => simp [load_text_nil]

/-! ### Decimal numerals -/

theorem isdigit_digitChar (d : Nat) (h : d < 10) :
    isdigit (Nat.digitChar d) = true ∧ (Nat.digitChar d).toNat - 48 = d := by
  interval_cases d <;> exact ⟨by decide, by decide⟩

theorem decimal_value_append (a b : List Char) :
    decimal_value (a ++ b) = b.foldl (fun acc c => acc * 10 + (c.toNat - 48)) (decimal_value a) := by
  simp [decimal_value, List.foldl_append]

theorem foldl_digits_shift (ds : List Char) (x : Nat) :
    ds.foldl (fun acc c => acc * 10 + (c.toNat - 48)) x =
      x * 10 ^ ds.length + decimal_value ds := by
  induction ds generalizing x with
  | nil => simp [decimal_value]
  | cons c ds ih =>
    simp only [List.foldl_cons, decimal_value, List.length_cons]
    rw [ih (x * 10 + (c.toNat - 48)), ih (0 * 10 + (c.toNat - 48))]
    ring

theorem toDigitsCore_spec (fuel : Nat) :
    ∀ (n : Nat) (ds : List Char), n < fuel → (∀ c ∈ ds, isdigit c = true) →
      (∀ c ∈ Nat.toDigitsCore 10 fuel n ds, isdigit c = true) ∧
      decimal_value (Nat.toDigitsCore 10 fuel n ds) = n * 10 ^ ds.length + decimal_value ds ∧
      Nat.toDigitsCore 10 fuel n ds ≠ [] := by
  induction fuel with
  | zero => intro n ds h; omega
  | succ fuel ih =>
    intro n ds hn hds
    have hd := isdigit_digitChar (n % 10) (Nat.mod_lt _ (by omega))
    have hds1 : ∀ c ∈ Nat.digitChar (n % 10) :: ds, isdigit c = true := by
      intro c hc
      rcases List.mem_cons.mp hc with h | h
      · rw [h]; exact hd.1
      · exact hds c h
    have hval : decimal_value (Nat.digitChar (n % 10) :: ds) =
        (n % 10) * 10 ^ ds.length + decimal_value ds := by
      have := foldl_digits_shift ds (0 * 10 + ((Nat.digitChar (n % 10)).toNat - 48))
      simp only [decimal_value, List.foldl_cons] at this ⊢
      rw [this, hd.2]; ring
    by_cases h0 : n / 10 = 0
    · simp only [Nat.toDigitsCore, h0, if_true]
      refine ⟨hds1, ?_, by simp⟩
      rw [hval]
      have : n % 10 = n := by omega
      rw [this]
    · simp only [Nat.toDigitsCore, h0, if_false]
      have hlt : n / 10 < fuel := by omega
      obtain ⟨i1, i2, i3⟩ := ih (n / 10) (Nat.digitChar (n % 10) :: ds) hlt hds1
      refine ⟨i1, ?_, i3⟩
      rw [i2, hval, List.length_cons, pow_succ]
      have : n = 10 * (n / 10) + n % 10 := (Nat.div_add_mod n 10).symm
      nth_rewrite 3 [this]
      ring

theorem fmt_u_digits (n : Nat) : ∀ c ∈ fmt_u n, isdigit c = true :=
  (toDigitsCore_spec (n + 1) n [] (Nat.lt_succ_self n) (by simp)).1

theorem fmt_u_value (n : Nat) : decimal_value (fmt_u n) = n := by
  have := (toDigitsCore_spec (n + 1) n [] (Nat.lt_succ_self n) (by simp)).2.1
  simpa [fmt_u, Nat.toDigits, decimal_value] using this

theorem fmt_u_ne_nil (n : Nat) : fmt_u n ≠ [] :=
  (toDigitsCore_spec (n + 1) n [] (Nat.lt_succ_self n) (by simp)).2.2

theorem fmt_u_length (n : Nat) (h : n ≤ UINT_MAX) : (fmt_u n).length ≤ 10 := by
  apply Nat.toDigitsCore_length 10 (by omega) (n + 1) n 10 _ (by omega)
  simp only [UINT_MAX] at h
  omega

theorem isdigit_facts (c : Char) (h : isdigit c = true) :
    isspace c = false ∧ c ≠ NUL ∧ c ≠ '\n' ∧ c ≠ '-' ∧ c ≠ '+' := by
  simp only [isdigit, Bool.and_eq_true, decide_eq_true_eq] at h
  refine ⟨?_, ?_, ?_, ?_, ?_⟩
  · by_contra hs
    simp only [isspace, Bool.not_eq_false, Bool.or_eq_true, decide_eq_true_eq] at hs
    rcases hs with ((((hs | hs) | hs) | hs) | hs) | hs <;> (rw [hs] at h; revert h; decide)
  all_goals (intro hs; rw [hs] at h; revert h; decide)

/-! ### Numeric conversion of a numeral -/

theorem subject_sequence_numeral (ds : List Char) (h : IsNumeral ds) :
    subject_sequence ds = (false, ds) := by
  obtain ⟨hne, hd⟩ := h
  cases ds with
  | nil => exact absurd rfl hne
  | cons c t =>
    have hc := isdigit_facts c (hd c (by simp))
    have htake : List.takeWhile isdigit (c :: t) = c :: t :=
      List.takeWhile_eq_self_iff.mpr hd
    have hdrop : List.dropWhile isspace (c :: t) = c :: t := by
      simp [List.dropWhile, hc.1]
    unfold subject_sequence
    rw [hdrop]
    split
    · rename_i heq
      exact absurd (List.cons.inj heq).1 hc.2.2.2.1
    · rename_i heq
      exact absurd (List.cons.inj heq).1 hc.2.2.2.2
    · rw [htake]

theorem sscanf_u_numeral (ds : List Char) (h : IsNumeral ds) (hv : decimal_value ds ≤ UINT_MAX) :
    sscanf_u ds = some (decimal_value ds) := by
  have hm : decimal_value ds % (UINT_MAX + 1) = decimal_value ds := Nat.mod_eq_of_lt (by omega)
  simp [sscanf_u, subject_sequence_numeral ds h, h.1, hm]

theorem strtoul_numeral (ds : List Char) (h : IsNumeral ds) (hv : decimal_value ds ≤ UINT_MAX) :
    strtoul ds = decimal_value ds := by
  have hgt : ¬ decimal_value ds > UINT_MAX := by omega
  simp [strtoul, subject_sequence_numeral ds h, h.1, hgt]

theorem store_value_numeral (b : Build) (c : Config) (name ds : List Char) (p : UIntVar)
    (h : IsNumeral ds) (hv : decimal_value ds ≤ UINT_MAX) :
    store_value b c ds (.uint name p) = p.set c (decimal_value ds) := by
  cases hb : b.TARGET_PSP
  · simp [store_value, hb, sscanf_u_numeral ds h hv]
  · simp [store_value, hb, strtoul_numeral ds h hv]

theorem isWord_of_isNumeral {ds : List Char} (h : IsNumeral ds) : IsWord ds :=
  ⟨h.1, fun c hc => (isdigit_facts c (h.2 c hc)).1, fun c hc => (isdigit_facts c (h.2 c hc)).2.1⟩

theorem noNewline_of_isNumeral {ds : List Char} (h : IsNumeral ds) : NoNewline ds :=
  fun c hc => (isdigit_facts c (h.2 c hc)).2.2.1

theorem fmt_u_isNumeral (n : Nat) : IsNumeral (fmt_u n) := ⟨fmt_u_ne_nil n, fmt_u_digits n⟩

/-! ### The option table -/

theorem options_facts : ∀ o ∈ options,
    find_option o.name options = some o ∧ IsWord o.name ∧ NoNewline o.name ∧
      o.name.length ≤ 14 := by
  intro o ho
  simp only [options, List.mem_cons, List.mem_singleton, List.not_mem_nil, or_false] at ho
  rcases ho with h | h | h | h | h | h | h | h | h | h | h | h | h | h | h | h <;>
    (subst h; exact ⟨rfl, by decide, by decide, by decide⟩)

/-! ### Lines of two tokens -/

theorem SpaceOrEnd_append_newline (r : List Char) (hr : SpaceOrEnd r) :
    SpaceOrEnd (r ++ ['\n']) := by
  cases r with
  | nil => exact isspace_newline
  | cons c r => exact hr

theorem noNewline_of_noSpace {t : List Char} (h : NoSpace t) : NoNewline t := by
  intro c hc hn
  have := h c hc
  rw [hn] at this
  exact absurd this (by decide)

/-- A line of at most 62 characters with two tokens or more, followed by its newline:
the loop body sees the first two tokens and the loop goes on with the rest. -/
theorem load_text_two_tokens (b : Build) (ws1 t0 ws2 t1 r rest : List Char) (w : World)
    (h1 : AllSpace ws1) (hne0 : t0 ≠ []) (h0 : NoSpace t0) (h2 : AllSpace ws2)
    (hne2 : ws2 ≠ []) (hne1 : t1 ≠ []) (h3 : NoSpace t1) (hr : SpaceOrEnd r)
    (hn : NoNewline (ws1 ++ t0 ++ ws2 ++ t1 ++ r)) (hz : NoNUL (ws1 ++ t0 ++ ws2 ++ t1 ++ r))
    (hlen : (ws1 ++ t0 ++ ws2 ++ t1 ++ r).length ≤ 62) :
    load_text b (ws1 ++ t0 ++ ws2 ++ t1 ++ r ++ '\n' :: rest) w =
      load_text b rest (apply_pair b t0 t1 w) := by
  rw [load_text_line b _ rest w hn hz hlen]
  have e : ws1 ++ t0 ++ ws2 ++ t1 ++ r ++ ['\n'] = ws1 ++ t0 ++ ws2 ++ t1 ++ (r ++ ['\n']) := by
    simp only [List.append_assoc]
  rw [e, load_line_two b ws1 t0 ws2 t1 (r ++ ['\n']) w h1 hne0 h0 h2 hne2 hne1 h3
    (SpaceOrEnd_append_newline r hr)]

/-- The line `name value`, with one space, followed by its newline. -/
theorem load_text_pair (b : Build) (t0 t1 rest : List Char) (w : World) (h0 : IsWord t0)
    (h1 : IsWord t1) (hlen : t0.length + t1.length ≤ 61) :
    load_text b (t0 ++ ' ' :: (t1 ++ '\n' :: rest)) w = load_text b rest (apply_pair b t0 t1 w) := by
  have hsp : AllSpace [' '] := by decide
  have hn : NoNewline ([] ++ t0 ++ [' '] ++ t1 ++ []) := by
    intro c hc
    simp only [List.nil_append, List.append_nil, List.mem_append, List.mem_singleton] at hc
    rcases hc with (hc | hc) | hc
    · exact noNewline_of_noSpace h0.2.1 c hc
    · rw [hc]; decide
    · exact noNewline_of_noSpace h1.2.1 c hc
  have hz : NoNUL ([] ++ t0 ++ [' '] ++ t1 ++ []) := by
    intro c hc
    simp only [List.nil_append, List.append_nil, List.mem_append, List.mem_singleton] at hc
    rcases hc with (hc | hc) | hc
    · exact h0.2.2 c hc
    · rw [hc]; decide
    · exact h1.2.2 c hc
  have hl : ([] ++ t0 ++ [' '] ++ t1 ++ []).length ≤ 62 := by
    simp only [List.nil_append, List.append_nil, List.length_append, List.length_singleton]
    omega
  have := load_text_two_tokens b [] t0 [' '] t1 [] rest w (by intro c hc; simp at hc) h0.1
    h0.2.1 hsp (by simp) h1.1 h1.2.1 trivial hn hz hl
  simpa [List.append_assoc] using this

theorem apply_pair_found (b : Build) (t0 t1 : List Char) (w : World) (o : ConfigOption)
    (h : find_option t0 options = some o) :
    (apply_pair b t0 t1 w).config = store_value b w.config t1 o ∧
      (apply_pair b t0 t1 w).fs = w.fs := by
  simp only [apply_pair, h]
  cases b.DEBUG <;> exact ⟨rfl, rfl⟩

/-! ### Reading back what `configfile_save` writes -/

theorem load_saved_option (b : Build) (s : Config) (hs : s.Valid) (o : ConfigOption)
    (ho : o ∈ options) (rest : List Char) (w : World) :
    ∃ w1, load_text b (save_option s o ++ rest) w = load_text b rest w1 ∧
      w1.config = copy_value s w.config o ∧ w1.fs = w.fs := by
  obtain ⟨hfind, hword, _, hlen⟩ := options_facts o ho
  cases o with
  | bool name p =>
    cases hv : p.get s
    · refine ⟨apply_pair b name "false".toList w, ?_, ?_⟩
      · have := load_text_pair b name "false".toList rest w hword (by decide)
          (by simp only [ConfigOption.name] at hlen; simp; omega)
        simpa [save_option, hv, List.append_assoc] using this
      · have := apply_pair_found b name "false".toList w _ hfind
        simp only [copy_value, hv]
        exact ⟨by rw [this.1]; rfl, this.2⟩
    · refine ⟨apply_pair b name "true".toList w, ?_, ?_⟩
      · have := load_text_pair b name "true".toList rest w hword (by decide)
          (by simp only [ConfigOption.name] at hlen; simp; omega)
        simpa [save_option, hv, List.append_assoc] using this
      · have := apply_pair_found b name "true".toList w _ hfind
        simp only [copy_value, hv]
        exact ⟨by rw [this.1]; rfl, this.2⟩
  | uint name p =>
    have hnum := fmt_u_isNumeral (p.get s)
    have hval : decimal_value (fmt_u (p.get s)) ≤ UINT_MAX := by
      rw [fmt_u_value]; exact hs p
    refine ⟨apply_pair b name (fmt_u (p.get s)) w, ?_, ?_⟩
    · have hl := fmt_u_length _ (hs p)
      have := load_text_pair b name (fmt_u (p.get s)) rest w hword (isWord_of_isNumeral hnum)
        (by simp only [ConfigOption.name] at hlen; omega)
      simpa [save_option, List.append_assoc] using this
    · have := apply_pair_found b name (fmt_u (p.get s)) w _ hfind
      rw [this.1, store_value_numeral b _ name _ p hnum hval, fmt_u_value]
      exact ⟨rfl, this.2⟩
  | float name p => exact nomatch p

theorem load_saved_options (b : Build) (s : Config) (hs : s.Valid) :
    ∀ (opts : List ConfigOption), (∀ o ∈ opts, o ∈ options) → ∀ (rest : List Char) (w : World),
      ∃ w1, load_text b (save_loop s opts ++ rest) w = load_text b rest w1 ∧
        w1.config = copy_values s opts w.config ∧ w1.fs = w.fs := by
  intro opts
  induction opts with
  | nil => intro _ rest w; exact ⟨w, rfl, rfl, rfl⟩
  | cons o os ih =>
    intro hmem rest w
    obtain ⟨w1, e1, c1, f1⟩ :=
      load_saved_option b s hs o (hmem o (by simp)) (save_loop s os ++ rest) w
    obtain ⟨w2, e2, c2, f2⟩ := ih (fun x hx => hmem x (by simp [hx])) rest w1
    refine ⟨w2, ?_, ?_, ?_⟩
    · rw [save_loop, List.append_assoc, e1, e2]
    · rw [c2, c1]; rfl
    · rw [f2, f1]

theorem copy_values_options (s c : Config) : copy_values s options c = s := by
  cases s
  cases c
  simp only [options, copy_values, copy_value, BoolVar.get, BoolVar.set, UIntVar.get,
    UIntVar.set]

/-! ### `configfile_save` -/

theorem save_loop_eq_spec (c : Config) : save_loop c options = unlines (spec_save_lines c) := by
  cases hf : c.configFullscreen <;>
    simp [save_loop, options, save_option, unlines, spec_save_lines, spec_bool, BoolVar.get,
      UIntVar.get, hf]

set_option maxRecDepth 100000 in
theorem save_loop_defaults : save_loop defaults options = default_file := by decide

theorem configfile_save_config (filename : List Char) (w : World) :
    (configfile_save filename w).config = w.config := by
  unfold configfile_save
  simp only [World.print]
  split <;> rfl

theorem configfile_save_fs (filename : List Char) (w : World) :
    (configfile_save filename w).fs =
      if w.fs.writable filename then w.fs.write filename (save_loop w.config options)
      else w.fs := by
  unfold configfile_save
  simp only [World.print]
  split <;> rfl

theorem decimal_value_lt (ds : List Char) (h : ∀ c ∈ ds, isdigit c = true) :
    decimal_value ds < 10 ^ ds.length := by
  induction ds with
  | nil => simp [decimal_value]
  | cons c ds ih =>
    have hc := h c (by simp)
    simp only [isdigit, Bool.and_eq_true, decide_eq_true_eq] at hc
    have ih1 := ih (fun d hd => h d (by simp [hd]))
    have := foldl_digits_shift ds (0 * 10 + (c.toNat - 48))
    simp only [decimal_value, List.foldl_cons] at this ih1 ⊢
    rw [this, List.length_cons, pow_succ]
    have h9 : c.toNat - 48 ≤ 9 := by omega
    nlinarith [Nat.pos_pow_of_pos ds.length (by omega : 0 < 10)]

/-- `%u` prints the shortest decimal numeral of the value. -/
theorem fmt_u_shortest (n : Nat) (ds : List Char) (h : IsNumeral ds)
    (hv : decimal_value ds = n) : (fmt_u n).length ≤ ds.length := by
  have hlt := decimal_value_lt ds h.2
  have hpos : 0 < ds.length := List.length_pos.mpr h.1
  by_contra hcon
  have hL : ds.length < (fmt_u n).length := by omega
  have := Nat.toDigitsCore_length 10 (by omega) (n + 1) n ds.length (by rw [← hv]; exact hlt) hpos
  simp only [fmt_u, Nat.toDigits] at hL
  omega

/-! ### Words of any length -/

/-- What `fgets` takes from a word followed by the end of the line. -/
theorem fgets_read_word (v eol : List Char) (hv : NoNewline v) (heol : eol = [] ∨ eol = ['\n']) :
    ∀ k : Nat, 0 < k →
      fgets_read k (v ++ eol) =
        (v.take k ++ (if v.length < k then eol else []),
          v.drop k ++ (if v.length < k then [] else eol),
          decide (v.length < k) && decide (eol = [])) := by
  induction v with
  | nil =>
    intro k hk
    cases k with
    | zero => omega
    | succ k =>
      rcases heol with h | h <;> subst h <;> simp [fgets_read]
  | cons c v ih =>
    intro k hk
    have hc : c ≠ '\n' := hv c (by simp)
    have hv1 : NoNewline v := fun d hd => hv d (by simp [hd])
    cases k with
    | zero => omega
    | succ k =>
      cases k with
      | zero =>
        simp [fgets_read, hc]
      | succ k =>
        show fgets_read (k + 1 + 1) (c :: (v ++ eol)) = _
        rw [fgets_read, if_neg hc, ih hv1 (k + 1) (by omega)]
        simp only [List.take_succ_cons, List.drop_succ_cons, List.length_cons,
          Nat.add_lt_add_iff_right, List.cons_append]

theorem fgets_read_prefix (a u : List Char) (ha : NoNewline a) :
    ∀ k : Nat, a.length ≤ k →
      fgets_read k (a ++ u) =
        (a ++ (fgets_read (k - a.length) u).1, (fgets_read (k - a.length) u).2.1,
          (fgets_read (k - a.length) u).2.2) := by
  induction a with
  | nil => intro k _; simp
  | cons c a ih =>
    intro k hk
    have hc : c ≠ '\n' := ha c (by simp)
    have ha1 : NoNewline a := fun d hd => ha d (by simp [hd])
    cases k with
    | zero => simp at hk
    | succ k =>
      simp only [List.length_cons] at hk
      show fgets_read (k + 1) (c :: (a ++ u)) = _
      rw [fgets_read, if_neg hc, ih ha1 k (by omega)]
      simp only [List.length_cons, Nat.add_sub_add_right, List.cons_append]

theorem NoSpace_take {v : List Char} (h : NoSpace v) (k : Nat) : NoSpace (v.take k) :=
  fun c hc => h c (List.mem_of_mem_take hc)

theorem NoNUL_take {v : List Char} (h : NoNUL v) (k : Nat) : NoNUL (v.take k) :=
  fun c hc => h c (List.mem_of_mem_take hc)

theorem NoSpace_drop {v : List Char} (h : NoSpace v) (k : Nat) : NoSpace (v.drop k) :=
  fun c hc => h c (List.mem_of_mem_drop hc)

theorem NoNUL_drop {v : List Char} (h : NoNUL v) (k : Nat) : NoNUL (v.drop k) :=
  fun c hc => h c (List.mem_of_mem_drop hc)

theorem NoNUL_append {a b : List Char} (ha : NoNUL a) (hb : NoNUL b) : NoNUL (a ++ b) := by
  intro c hc
  rcases List.mem_append.mp hc with h | h
  · exact ha c h
  · exact hb c h

theorem NoNUL_eol {eol : List Char} (heol : eol = [] ∨ eol = ['\n']) : NoNUL eol := by
  rcases heol with h | h <;> subst h <;> decide

theorem AllSpace_eol {eol : List Char} (heol : eol = [] ∨ eol = ['\n']) : AllSpace eol := by
  rcases heol with h | h <;> subst h <;> decide

/-- A text made of a single word of any length, with or without final newline, changes no
variable: every piece `read_file_line` returns holds one token at most. -/
theorem load_text_word (b : Build) (eol : List Char) (heol : eol = [] ∨ eol = ['\n']) :
    ∀ (n : Nat) (v : List Char) (w : World), v.length ≤ n → NoSpace v → NoNUL v →
      ∃ w1, load_text b (v ++ eol) w = .ok w1 ∧ w1.config = w.config ∧ w1.fs = w.fs := by
  intro n
  induction n with
  | zero =>
    intro v w hlen _ _
    have hv : v = [] := List.length_eq_zero.mp (Nat.le_zero.mp hlen)
    subst hv
    rcases heol with h | h
    · subst h
      exact ⟨w, load_text_nil b w, rfl, rfl⟩
    · subst h
      have := load_text_line b [] [] w (by intro c hc; simp at hc) (by intro c hc; simp at hc)
        (by simp)
      simp only [List.nil_append] at this ⊢
      rw [this, load_line_none b ['\n'] w (by decide)]
      exact ⟨w, load_text_nil b w, rfl, rfl⟩
  | succ n ih =>
    intro v w hlen hsp hz
    cases hv : v with
    | nil =>
      subst hv
      rcases heol with h | h
      · subst h
        exact ⟨w, load_text_nil b w, rfl, rfl⟩
      · subst h
        have := load_text_line b [] [] w (by intro c hc; simp at hc)
          (by intro c hc; simp at hc) (by simp)
        simp only [List.nil_append] at this ⊢
        rw [this, load_line_none b ['\n'] w (by decide)]
        exact ⟨w, load_text_nil b w, rfl, rfl⟩
    | cons c t =>
      have hr := fgets_read_word v eol (noNewline_of_noSpace hsp) heol 63 (by omega)
      have htake_ne : v.take 63 ≠ [] := by rw [hv]; simp
      have hline : load_line b (v.take 63 ++ (if v.length < 63 then eol else [])) w =
          .ok (w.print "error: expected value\n".toList) := by
        have := load_line_one b [] (v.take 63) (if v.length < 63 then eol else []) w
          (by intro c hc; simp at hc) htake_ne (NoSpace_take hsp 63)
          (by split
              · exact AllSpace_eol heol
              · intro c hc; simp at hc)
        simpa using this
      have hcs : cstring (v.take 63 ++ (if v.length < 63 then eol else [])) =
          v.take 63 ++ (if v.length < 63 then eol else []) := by
        apply cstring_of_NoNUL
        apply NoNUL_append (NoNUL_take hz 63)
        split
        · exact NoNUL_eol heol
        · intro c hc; simp at hc
      have hne : v.take 63 ++ (if v.length < 63 then eol else []) ≠ [] := by
        simp [htake_ne]
      rw [← hv]
      have hcons : v ++ eol = c :: (t ++ eol) := by rw [hv]; rfl
      rw [hcons, load_text_cons, ← hcons, hr]
      simp only [hcs, if_neg hne, hline]
      by_cases hlt : v.length < 63
      · have hd : v.drop 63 = [] := List.drop_eq_nil_of_le (by omega)
        simp only [hlt, if_true, hd, List.nil_append]
        exact ⟨_, load_text_nil b _, rfl, rfl⟩
      · simp only [hlt, if_false]
        have hdl : (v.drop 63).length ≤ n := by
          rw [List.length_drop]; omega
        obtain ⟨w1, e1, c1, f1⟩ := ih (v.drop 63) (w.print "error: expected value\n".toList)
          hdl (NoSpace_drop hsp 63) (NoNUL_drop hz 63)
        exact ⟨w1, e1, c1, f1⟩

/-- The line `name value` with a value of any length, with or without final newline: the
loop body sees the name and the first `62 - name.length` characters of the value, and
what is left of the value changes no variable. -/
theorem load_text_name_value (b : Build) (name v eol : List Char) (w : World)
    (hname : IsWord name) (hlen : name.length ≤ 14) (hv : IsWord v)
    (heol : eol = [] ∨ eol = ['\n']) :
    ∃ w1, load_text b (name ++ ' ' :: (v ++ eol)) w = .ok w1 ∧
      w1.config = (apply_pair b name (v.take (62 - name.length)) w).config ∧
      w1.fs = (apply_pair b name (v.take (62 - name.length)) w).fs := by
  obtain ⟨hne, hsp, hz⟩ := hname
  obtain ⟨hvne, hvsp, hvz⟩ := hv
  have ha : NoNewline (name ++ [' ']) := by
    intro c hc
    rcases List.mem_append.mp hc with h | h
    · exact noNewline_of_noSpace hsp c h
    · have : c = ' ' := by simpa using h
      rw [this]; decide
  have hal : (name ++ [' ']).length ≤ 63 := by
    simp only [List.length_append, List.length_singleton]; omega
  have hk : 63 - (name ++ [' ']).length = 62 - name.length := by
    simp only [List.length_append, List.length_singleton]; omega
  have hr := fgets_read_prefix (name ++ [' ']) (v ++ eol) ha 63 hal
  rw [hk, fgets_read_word v eol (noNewline_of_noSpace hvsp) heol (62 - name.length) (by omega)]
    at hr
  simp only [] at hr
  have htake_ne : v.take (62 - name.length) ≠ [] := by
    cases v with
    | nil => exact absurd rfl hvne
    | cons c t =>
      have : 62 - name.length = (61 - name.length) + 1 := by omega
      rw [this]; simp
  have hz1 : NoNUL (name ++ [' '] ++ (v.take (62 - name.length) ++
      (if v.length < 62 - name.length then eol else []))) := by
    apply NoNUL_append (NoNUL_append hz (by decide))
    apply NoNUL_append (NoNUL_take hvz _)
    split
    · exact NoNUL_eol heol
    · intro c hc; simp at hc
  have hline := load_line_two b [] name [' '] (v.take (62 - name.length))
    (if v.length < 62 - name.length then eol else []) w (by intro c hc; simp at hc) hne hsp
    (by decide) (by simp) htake_ne (NoSpace_take hvsp _)
    (by split
        · rcases heol with h | h <;> subst h
          · trivial
          · exact isspace_newline
        · trivial)
  have e1 : [] ++ name ++ [' '] ++ v.take (62 - name.length) ++
      (if v.length < 62 - name.length then eol else []) =
      name ++ [' '] ++ (v.take (62 - name.length) ++
        (if v.length < 62 - name.length then eol else [])) := by
    simp only [List.nil_append, List.append_assoc]
  rw [e1] at hline
  have htext : name ++ ' ' :: (v ++ eol) = name ++ [' '] ++ (v ++ eol) := by simp
  cases hcons : name ++ [' '] ++ (v ++ eol) with
  | nil => simp at hcons
  | cons c t =>
    rw [htext, hcons, load_text_cons, ← hcons, hr]
    simp only [cstring_of_NoNUL _ hz1, hline]
    rw [if_neg (by simp [hne])]
    by_cases hlt : v.length < 62 - name.length
    · have hd : v.drop (62 - name.length) = [] := List.drop_eq_nil_of_le (by omega)
      simp only [hlt, if_true, hd, List.nil_append]
      exact ⟨_, load_text_nil b _, rfl, rfl⟩
    · simp only [hlt, if_false]
      obtain ⟨w1, e2, c2, f2⟩ := load_text_word b eol heol _ (v.drop (62 - name.length))
        (apply_pair b name (v.take (62 - name.length)) w) (Nat.le_refl _) (NoSpace_drop hvsp _)
        (NoNUL_drop hvz _)
      exact ⟨w1, e2, c2, f2⟩

theorem configfile_load_existing (b : Build) (filename text : List Char) (w : World)
    (h : w.fs.file filename = some text) :
    configfile_load b filename w =
      load_text b text
        (w.print ("Loading configuration from '".toList ++ filename ++ "'\n".toList)) := by
  simp only [configfile_load, World.print, fopen_r, h, load_text]

theorem sample_config_valid : sample_config.Valid := by
  intro p
  cases p <;> decide

/-! ### Values that are compared or converted -/

theorem take_eq_literal (v lit : List Char) (k : Nat) (h : lit.length < k) :
    v.take k = lit ↔ v = lit := by
  constructor
  · intro e
    have hl := congrArg List.length e
    rw [List.length_take] at hl
    have : v.length ≤ k := by omega
    rw [List.take_of_length_le this] at e
    exact e
  · intro e
    rw [e, List.take_of_length_le (by omega)]

theorem starts_numeral_take (v : List Char) (k : Nat) (hk : 2 ≤ k) :
    starts_numeral (v.take k) = starts_numeral v := by
  obtain ⟨j, rfl⟩ : ∃ j, k = j + 2 := ⟨k - 2, by omega⟩
  cases v with
  | nil => rfl
  | cons c rest =>
    cases rest with
    | nil => rfl
    | cons d rest2 => rfl

theorem takeWhile_isdigit_of_head (s : List Char)
    (h : (match s with
          | [] => false
          | d :: _ => isdigit d) = false) : s.takeWhile isdigit = [] := by
  cases s with
  | nil => rfl
  | cons d s =>
    simp only at h
    simp [List.takeWhile, h]

theorem subject_sequence_malformed (tok : List Char) (hw : IsWord tok)
    (hm : starts_numeral tok = false) : (subject_sequence tok).2 = [] := by
  obtain ⟨hne, hsp, _⟩ := hw
  cases tok with
  | nil => exact absurd rfl hne
  | cons c rest =>
    have hc : isspace c = false := hsp c (by simp)
    have hdrop : List.dropWhile isspace (c :: rest) = c :: rest := by
      simp [List.dropWhile, hc]
    simp only [starts_numeral, Bool.or_eq_false_iff, Bool.and_eq_false_iff] at hm
    obtain ⟨hd, hs⟩ := hm
    unfold subject_sequence
    rw [hdrop]
    split
    · rename_i t heq
      have e1 := (List.cons.inj heq).1
      have e2 := (List.cons.inj heq).2
      subst e1 e2
      rcases hs with h | h
      · simp at h
      · exact takeWhile_isdigit_of_head _ h
    · rename_i t heq
      have e1 := (List.cons.inj heq).1
      have e2 := (List.cons.inj heq).2
      subst e1 e2
      rcases hs with h | h
      · simp at h
      · exact takeWhile_isdigit_of_head _ h
    · simp [List.takeWhile, hd]

theorem store_value_malformed (b : Build) (c : Config) (name tok : List Char) (p : UIntVar)
    (hw : IsWord tok) (hm : starts_numeral tok = false) :
    store_value b c tok (.uint name p) = if b.TARGET_PSP then p.set c 0 else c := by
  have hs := subject_sequence_malformed tok hw hm
  cases hb : b.TARGET_PSP
  · simp [store_value, hb, sscanf_u, hs]
  · simp [store_value, hb, strtoul, hs]

/-! ### The loop depends on the variables only -/

theorem absorb_absorb (w r x : World) : (w.absorb r).absorb x = w.absorb (r.absorb x) := by
  simp [World.absorb, List.append_assoc]

theorem absorb_bare (w : World) : w.absorb (bare w.config) = w := by
  simp [World.absorb, bare]

theorem load_line_absorb (b : Build) (line : List Char) (w : World) :
    load_line b line w = (load_line b line (bare w.config)).map w.absorb := by
  simp only [load_line]
  generalize tokenize_string (skip_whitespace line) 2 = r
  cases r with
  | error e => rfl
  | ok tokens =>
    match tokens with
    | [] => simp [Except.map, absorb_bare]
    | [_] => simp [Except.map, World.absorb, World.print, bare]
    | [tok0, tok1] =>
      simp only []
      cases find_option tok0 options with
      | none => simp [Except.map, World.absorb, World.print, bare]
      | some o => cases b.DEBUG <;> simp [Except.map, World.absorb, World.print, bare]
    | _ :: _ :: _ :: _ => simp [Except.map, World.absorb, World.print, bare]

theorem load_loop_absorb (b : Build) :
    ∀ (fuel : Nat) (file : FILE) (w : World),
      load_loop b fuel file w = (load_loop b fuel file (bare w.config)).map w.absorb := by
  intro fuel
  induction fuel with
  | zero => intro file w; rfl
  | succ n ih =>
    intro file w
    rw [load_loop, load_loop]
    cases read_file_line file with
    | error e => rfl
    | ok r =>
      obtain ⟨line, file1⟩ := r
      cases line with
      | none => simp [Except.map, absorb_bare]
      | some line =>
        simp only []
        rw [load_line_absorb b line w]
        cases load_line b line (bare w.config) with
        | error e => rfl
        | ok r1 =>
          simp only [Except.map]
          rw [ih file1 (w.absorb r1), ih file1 r1]
          have hc : (w.absorb r1).config = r1.config := rfl
          rw [hc]
          cases load_loop b n file1 (bare r1.config) with
          | error e => rfl
          | ok r2 => simp [Except.map, absorb_absorb]

theorem load_text_absorb (b : Build) (text : List Char) (w : World) :
    load_text b text w = (load_text b text (bare w.config)).map w.absorb :=
  load_loop_absorb b _ _ w

theorem find_option_none (name : List Char) :
    ∀ (opts : List ConfigOption), (∀ o ∈ opts, o.name ≠ name) → find_option name opts = none := by
  intro opts
  induction opts with
  | nil => intro _; rfl
  | cons o rest ih =>
    intro h
    have h1 : name ≠ o.name := fun e => h o (by simp) e.symm
    simp [find_option, h1, ih (fun x hx => h x (by simp [hx]))]

/-! ### The tokenizer returns the first words -/

theorem word_end_spec (s : List Char) :
    s = (word_end s).1 ++ (word_end s).2 ∧ NoSpace (word_end s).1 ∧
      SpaceOrEnd (word_end s).2 := by
  induction s with
  | nil => exact ⟨rfl, fun c hc => by simp [word_end] at hc, trivial⟩
  | cons c s ih =>
    by_cases hc : isspace c = true
    · simp only [word_end, hc, if_true]
      exact ⟨rfl, fun d hd => by simp at hd, hc⟩
    · simp only [word_end, hc]
      obtain ⟨h1, h2, h3⟩ := ih
      refine ⟨?_, ?_, h3⟩
      · simp only [Bool.false_eq_true, if_false, List.cons_append, ← h1]
      · intro d hd
        simp only [Bool.false_eq_true, if_false, List.mem_cons] at hd
        rcases hd with h | h
        · rw [h]; simpa using hc
        · exact h2 d h

theorem skip_whitespace_spec (s : List Char) :
    skip_whitespace s = [] ∨ ∃ c cs, skip_whitespace s = c :: cs ∧ isspace c = false := by
  induction s with
  | nil => exact Or.inl rfl
  | cons c s ih =>
    by_cases hc : isspace c = true
    · simpa [skip_whitespace, hc] using ih
    · exact Or.inr ⟨c, s, by simp [skip_whitespace, hc], by simpa using hc⟩

theorem words_nil : words [] = [] := by
  simp [words, List.splitOnP_nil]

theorem words_cons_space (c : Char) (cs : List Char) (hc : isspace c = true) :
    words (c :: cs) = words cs := by
  simp [words, List.splitOnP_cons, hc]

theorem words_word (t r : List Char) (hne : t ≠ []) (h : NoSpace t) (hr : SpaceOrEnd r) :
    words (t ++ r) = t :: words r := by
  have hn : ∀ x ∈ t, ¬ isspace x = true := fun x hx => by simp [h x hx]
  have ht : (!t.isEmpty) = true := by
    cases t with
    | nil => exact absurd rfl hne
    | cons c t => rfl
  cases r with
  | nil =>
    simp only [List.append_nil, words, List.splitOnP_eq_single isspace t hn, List.splitOnP_nil]
    simp [List.filter, ht]
  | cons c r =>
    have hc : isspace c = true := hr
    rw [words_cons_space c r hc]
    simp only [words, List.splitOnP_first isspace t hn c hc r]
    simp [List.filter, ht]

theorem words_skip_whitespace (s : List Char) : words (skip_whitespace s) = words s := by
  induction s with
  | nil => rfl
  | cons c s ih =>
    by_cases hc : isspace c = true
    · simp [skip_whitespace, hc, ih, words_cons_space c s hc]
    · simp [skip_whitespace, hc]

/-- A text that starts with a character that is not white space is its first word followed
by the rest, which is shorter. -/
theorem first_word_split (c : Char) (cs : List Char) (hc : isspace c = false) :
    ∃ t r, c :: cs = t ++ r ∧ t ≠ [] ∧ NoSpace t ∧ SpaceOrEnd r ∧ r.length ≤ cs.length ∧
      word_split (c :: cs) = .ok (t, skip_whitespace r) := by
  obtain ⟨h1, h2, h3⟩ := word_end_spec (c :: cs)
  have hne : (word_end (c :: cs)).1 ≠ [] := by simp [word_end, hc]
  refine ⟨(word_end (c :: cs)).1, (word_end (c :: cs)).2, h1, hne, h2, h3, ?_, ?_⟩
  · have hl := congrArg List.length h1
    rw [List.length_append, List.length_cons] at hl
    have : 0 < (word_end (c :: cs)).1.length := List.length_pos.mpr hne
    omega
  · have := word_split_word _ _ hne h2 h3
    rw [← h1] at this
    exact this

theorem tokenize_loop_words :
    ∀ (n : Nat) (str : List Char) (acc : List (List Char)),
      tokenize_loop n (skip_whitespace str) acc = .ok (acc ++ (words str).take n) := by
  intro n
  induction n with
  | zero => intro str acc; simp [tokenize_loop]
  | succ n ih =>
    intro str acc
    rcases skip_whitespace_spec str with h | ⟨c, cs, h, hc⟩
    · have hw : words str = [] := by rw [← words_skip_whitespace, h, words_nil]
      simp [h, hw, tokenize_loop]
    · obtain ⟨t, r, e, hne, hns, hsp, _, hsplit⟩ := first_word_split c cs hc
      have hw : words str = t :: words r := by
        rw [← words_skip_whitespace, h, e, words_word t r hne hns hsp]
      rw [h, tokenize_loop]
      simp only [hsplit]
      rw [ih r (acc ++ [t]), hw]
      simp

theorem tokenize_string_eq_words (str : List Char) (maxTokens : Int) :
    tokenize_string str maxTokens = .ok ((words str).take maxTokens.toNat) := by
  rw [tokenize_string, tokenize_loop_words]
  rfl

theorem words_eq_nil_iff (str : List Char) : words str = [] ↔ AllSpace str := by
  induction str with
  | nil => simp [words_nil, AllSpace]
  | cons c cs ih =>
    by_cases hc : isspace c = true
    · rw [words_cons_space c cs hc, ih]
      constructor
      · intro h d hd
        rcases List.mem_cons.mp hd with e | e
        · rw [e]; exact hc
        · exact h d e
      · intro h d hd
        exact h d (by simp [hd])
    · have hc1 : isspace c = false := by simpa using hc
      obtain ⟨t, r, e, hne, hns, hsp, _, _⟩ := first_word_split c cs hc1
      rw [e, words_word t r hne hns hsp, ← e]
      constructor
      · intro h; simp at h
      · intro h
        exact absurd (h c (by simp)) hc

theorem words_are_words :
    ∀ (n : Nat) (str : List Char), str.length ≤ n → ∀ t ∈ words str, t ≠ [] ∧ NoSpace t := by
  intro n
  induction n with
  | zero =>
    intro str hlen t ht
    have : str = [] := List.length_eq_zero.mp (Nat.le_zero.mp hlen)
    rw [this, words_nil] at ht
    simp at ht
  | succ n ih =>
    intro str hlen t ht
    cases str with
    | nil => rw [words_nil] at ht; simp at ht
    | cons c cs =>
      simp only [List.length_cons] at hlen
      by_cases hc : isspace c = true
      · rw [words_cons_space c cs hc] at ht
        exact ih cs (by omega) t ht
      · have hc1 : isspace c = false := by simpa using hc
        obtain ⟨t0, r, e, hne, hns, hsp, hlr, _⟩ := first_word_split c cs hc1
        rw [e, words_word t0 r hne hns hsp] at ht
        rcases List.mem_cons.mp ht with h | h
        · rw [h]; exact ⟨hne, hns⟩
        · exact ih r (by omega) t h

/-! ### No run ends on the assertion of `word_split` -/

theorem load_line_ok (b : Build) (line : List Char) (w : World) :
    ∃ w1, load_line b line w = .ok w1 := by
  simp only [load_line, tokenize_string_eq_words]
  generalize (words (skip_whitespace line)).take (2 : Int).toNat = toks
  match toks with
  | [] => exact ⟨_, rfl⟩
  | [_] => exact ⟨_, rfl⟩
  | [tok0, tok1] =>
    simp only []
    cases find_option tok0 options with
    | none => exact ⟨_, rfl⟩
    | some o => cases b.DEBUG <;> exact ⟨_, rfl⟩
  | _ :: _ :: _ :: _ => exact ⟨_, rfl⟩

theorem load_loop_faults (b : Build) :
    ∀ (fuel : Nat) (text : List Char) (e : Bool) (w : World), text.length < fuel →
      (∃ w1, load_loop b fuel { rest := text, eof := e } w = .ok w1) ∨
        load_loop b fuel { rest := text, eof := e } w = .error .assert_offset_positive := by
  intro fuel
  induction fuel with
  | zero => intro text e w h; omega
  | succ n ih =>
    intro text e w h
    cases text with
    | nil => exact Or.inl ⟨w, load_loop_nil b n e w⟩
    | cons c t =>
      rw [load_loop_cons]
      have hlen : (fgets_read 63 (c :: t)).2.1.length < (c :: t).length :=
        fgets_read_rest_length 62 c t
      split
      · exact Or.inr rfl
      · obtain ⟨w1, hw1⟩ := load_line_ok b (cstring (fgets_read 63 (c :: t)).1) w
        rw [hw1]
        exact ih _ _ w1 (by simp only [List.length_cons] at hlen h; omega)

/-! ### Lines with one token at most, of any length -/

theorem print_nil (w : World) : w.print [] = w := by
  simp [World.print]

theorem print_print (w : World) (x y : List Char) : (w.print x).print y = w.print (x ++ y) := by
  simp [World.print, List.append_assoc]

theorem reports_add (j k : Nat) : reports (j + k) = reports j ++ reports k := by
  induction j with
  | zero => simp [reports]
  | succ j ih =>
    have : j + 1 + k = (j + k) + 1 := by omega
    rw [this, reports, reports, ih, List.append_assoc]

theorem NoNUL_of_AllSpace {a : List Char} (h : AllSpace a) : NoNUL a := by
  intro c hc e
  have := h c hc
  rw [e] at this
  exact absurd this (by decide)

theorem AllSpace_append {a c : List Char} (ha : AllSpace a) (hc : AllSpace c) :
    AllSpace (a ++ c) := by
  intro x hx
  rcases List.mem_append.mp hx with h | h
  · exact ha x h
  · exact hc x h

theorem NoNewline_append {a c : List Char} (ha : NoNewline a) (hc : NoNewline c) :
    NoNewline (a ++ c) := by
  intro x hx
  rcases List.mem_append.mp hx with h | h
  · exact ha x h
  · exact hc x h

theorem load_line_single (b : Build) (a t c : List Char) (w : World) (ha : AllSpace a)
    (ht : NoSpace t) (hc : AllSpace c) :
    load_line b (a ++ t ++ c) w = .ok (w.print (reports (if t = [] then 0 else 1))) := by
  by_cases h : t = []
  · subst h
    rw [if_pos rfl, List.append_nil, load_line_none b _ w (AllSpace_append ha hc)]
    simp [reports, print_nil]
  · rw [if_neg h, load_line_one b a t c w ha h ht hc]
    simp [reports]

/-- A text made of one line with one token at most (white space, a word that may be empty,
white space), of any length, with or without final newline: the load returns normally,
changes no variable and prints one report for every piece read that holds a part of the
word. -/
theorem load_text_single (b : Build) (eol : List Char) (heol : eol = [] ∨ eol = ['\n']) :
    ∀ (n : Nat) (a t c : List Char) (w : World), (a ++ t ++ c).length ≤ n →
      AllSpace a → NoNewline a → NoSpace t → NoNUL t → AllSpace c → NoNewline c →
      ∃ k, load_text b (a ++ t ++ c ++ eol) w = .ok (w.print (reports k)) ∧
        (t = [] → k = 0) ∧ (t ≠ [] → 1 ≤ k) ∧ ((a ++ t ++ c).length ≤ 62 → k ≤ 1) := by
  intro n
  induction n with
  | zero =>
    intro a t c w hlen _ _ _ _ _ _
    have hv : a ++ t ++ c = [] := List.length_eq_zero.mp (Nat.le_zero.mp hlen)
    have ht : t = [] := by
      have := congrArg List.length hv
      simp only [List.length_append, List.length_nil] at this
      exact List.length_eq_zero.mp (by omega)
    refine ⟨0, ?_, fun _ => rfl, fun h => absurd ht h, fun _ => Nat.zero_le _⟩
    rw [hv, reports, print_nil]
    rcases heol with h | h
    · subst h
      exact load_text_nil b w
    · subst h
      have := load_text_line b [] [] w (by intro c hc; simp at hc) (by intro c hc; simp at hc)
        (by simp)
      simp only [List.nil_append] at this ⊢
      rw [this, load_line_none b ['\n'] w (by decide)]
      exact load_text_nil b w
  | succ n ih =>
    intro a t c w hlen ha hna ht hzt hc hnc
    by_cases hv : a ++ t ++ c = []
    · have ht0 : t = [] := by
        have := congrArg List.length hv
        simp only [List.length_append, List.length_nil] at this
        exact List.length_eq_zero.mp (by omega)
      refine ⟨0, ?_, fun _ => rfl, fun h => absurd ht0 h, fun _ => Nat.zero_le _⟩
      rw [hv, reports, print_nil]
      rcases heol with h | h
      · subst h
        exact load_text_nil b w
      · subst h
        have := load_text_line b [] [] w (by intro c hc; simp at hc)
          (by intro c hc; simp at hc) (by simp)
        simp only [List.nil_append] at this ⊢
        rw [this, load_line_none b ['\n'] w (by decide)]
        exact load_text_nil b w
    · have hnv : NoNewline (a ++ t ++ c) :=
        NoNewline_append (NoNewline_append hna (noNewline_of_noSpace ht)) hnc
      have hr := fgets_read_word (a ++ t ++ c) eol hnv heol 63 (by omega)
      have htake : (a ++ t ++ c).take 63 =
          a.take 63 ++ t.take (63 - a.length) ++ c.take (63 - a.length - t.length) := by
        rw [List.take_append_eq_append_take, List.take_append_eq_append_take, List.length_append]
        congr 2
        omega
      have hdrop : (a ++ t ++ c).drop 63 =
          a.drop 63 ++ t.drop (63 - a.length) ++ c.drop (63 - a.length - t.length) := by
        rw [List.drop_append_eq_append_drop, List.drop_append_eq_append_drop, List.length_append]
        congr 2
        omega
      have hAa : AllSpace (a.take 63) := fun x hx => ha x (List.mem_of_mem_take hx)
      have hAc : AllSpace (c.take (63 - a.length - t.length)) :=
        fun x hx => hc x (List.mem_of_mem_take hx)
      have hAe : AllSpace (if (a ++ t ++ c).length < 63 then eol else []) := by
        split
        · exact AllSpace_eol heol
        · intro x hx; simp at hx
      have hline := load_line_single b (a.take 63) (t.take (63 - a.length))
        (c.take (63 - a.length - t.length) ++ (if (a ++ t ++ c).length < 63 then eol else [])) w
        hAa (NoSpace_take ht _) (AllSpace_append hAc hAe)
      have hchunk : (a ++ t ++ c).take 63 ++ (if (a ++ t ++ c).length < 63 then eol else []) =
          a.take 63 ++ t.take (63 - a.length) ++
            (c.take (63 - a.length - t.length) ++
              (if (a ++ t ++ c).length < 63 then eol else [])) := by
        rw [htake, List.append_assoc]
      have hzchunk : NoNUL ((a ++ t ++ c).take 63 ++
          (if (a ++ t ++ c).length < 63 then eol else [])) := by
        rw [hchunk]
        exact NoNUL_append (NoNUL_append (NoNUL_of_AllSpace hAa) (NoNUL_take hzt _))
          (NoNUL_of_AllSpace (AllSpace_append hAc hAe))
      have hne : (a ++ t ++ c).take 63 ++ (if (a ++ t ++ c).length < 63 then eol else []) ≠
          [] := by
        cases hcase : a ++ t ++ c with
        | nil => exact absurd hcase hv
        | cons x xs => simp
      obtain ⟨x, xs, hcons⟩ : ∃ x xs, a ++ t ++ c ++ eol = x :: xs := by
        cases hcase : a ++ t ++ c with
        | nil => exact absurd hcase hv
        | cons x xs => exact ⟨x, xs ++ eol, rfl⟩
      rw [hcons, load_text_cons, ← hcons, hr]
      simp only [cstring_of_NoNUL _ hzchunk, if_neg hne]
      rw [hchunk, hline]
      simp only []
      by_cases hlt : (a ++ t ++ c).length < 63
      · have hd : (a ++ t ++ c).drop 63 = [] := List.drop_eq_nil_of_le (by omega)
        simp only [hlt, if_true, hd, List.nil_append]
        refine ⟨if t.take (63 - a.length) = [] then 0 else 1, load_text_nil b _, ?_, ?_, ?_⟩
        · intro h0; simp [h0]
        · intro h0
          have hpos : t.take (63 - a.length) ≠ [] := by
            simp only [List.length_append] at hlt
            cases t with
            | nil => exact absurd rfl h0
            | cons y ys =>
              have : 63 - a.length = (62 - a.length) + 1 := by omega
              rw [this]; simp
          simp [hpos]
        · intro _; split <;> omega
      · simp only [hlt, if_false]
        rw [hdrop]
        have hlen2 : (a.drop 63 ++ t.drop (63 - a.length) ++
            c.drop (63 - a.length - t.length)).length ≤ n := by
          rw [← hdrop, List.length_drop]; omega
        obtain ⟨k, hk, hk0, hk1, _⟩ := ih (a.drop 63) (t.drop (63 - a.length))
          (c.drop (63 - a.length - t.length))
          (w.print (reports (if t.take (63 - a.length) = [] then 0 else 1))) hlen2
          (fun x hx => ha x (List.mem_of_mem_drop hx))
          (fun x hx => hna x (List.mem_of_mem_drop hx)) (NoSpace_drop ht _) (NoNUL_drop hzt _)
          (fun x hx => hc x (List.mem_of_mem_drop hx))
          (fun x hx => hnc x (List.mem_of_mem_drop hx))
        refine ⟨(if t.take (63 - a.length) = [] then 0 else 1) + k, ?_, ?_, ?_, ?_⟩
        · rw [hk, print_print, reports_add]
        · intro h0
          have := hk0 (by rw [h0]; simp)
          simp [h0, this]
        · intro h0
          by_cases h1 : t.take (63 - a.length) = []
          · have hz : 63 - a.length = 0 := by
              cases t with
              | nil => exact absurd rfl h0
              | cons y ys =>
                by_contra hcon
                obtain ⟨m, hm⟩ : ∃ m, 63 - a.length = m + 1 := ⟨63 - a.length - 1, by omega⟩
                rw [hm] at h1
                simp at h1
            have := hk1 (by rw [hz]; simpa using h0)
            omega
          · simp [h1]
        · intro h62; omega

/-! ## The claims -/

/-- C1 (round trip). For every build, file name and configuration whose unsigned variables
fit 32 bits: when `configfile_save` can open the file, loading the file it wrote, starting
from the compiled-in defaults, returns normally with every variable equal to the saved one. -/
theorem save_load_roundtrip (b : Build) (filename : List Char) (s : Config)
    (fs : FileSystem) (out1 out2 : List Char) (hs : s.Valid)
    (hw : fs.writable filename = true) :
    ∃ w, configfile_load b filename
        { config := defaults,
          fs := (configfile_save filename { config := s, fs := fs, stdout := out1 }).fs,
          stdout := out2 } = .ok w ∧ w.config = s := by
  have hfs := configfile_save_fs filename { config := s, fs := fs, stdout := out1 }
  simp only [hw, if_true] at hfs
  have hfile : (configfile_save filename { config := s, fs := fs, stdout := out1 }).fs.file
      filename = some (save_loop s options) := by
    rw [hfs]; simp [FileSystem.write]
  rw [configfile_load_existing b filename (save_loop s options)
    ⟨defaults, (configfile_save filename ⟨s, fs, out1⟩).fs, out2⟩ hfile]
  generalize World.print _ _ = w0
  obtain ⟨w1, e1, c1, _⟩ := load_saved_options b s hs options (fun _ h => h) [] w0
  rw [List.append_nil, load_text_nil] at e1
  exact ⟨w1, e1, by rw [c1, copy_values_options]⟩

theorem save_load_roundtrip_witness :
    sample_config.Valid ∧ empty_fs.writable cfg = true ∧
    ∃ w, configfile_load { TARGET_PSP := true, DEBUG := false } cfg
        { config := defaults,
          fs := (configfile_save cfg { config := sample_config, fs := empty_fs, stdout := [] }).fs,
          stdout := [] } = .ok w ∧ w.config = sample_config :=
  ⟨sample_config_valid, rfl,
    save_load_roundtrip { TARGET_PSP := true, DEBUG := false } cfg sample_config empty_fs [] []
      sample_config_valid rfl⟩

/-- C9 (missing-file self-heal). When `fopen(filename, "r")` finds no file, `configfile_load`
returns normally, leaves every variable as it was, and leaves the file system exactly as
`configfile_save` leaves it for the same variables; when the file can be opened for writing,
its content is what the save loop writes, and for the compiled-in defaults that is the 16
default lines in table order. -/
theorem load_missing_file_creates (b : Build) (filename : List Char) (w : World)
    (h : w.fs.file filename = none) :
    ∃ w1, configfile_load b filename w = .ok w1 ∧ w1.config = w.config ∧
      w1.fs = (configfile_save filename w).fs ∧
      (w.fs.writable filename = true →
        w1.fs.file filename = some (save_loop w.config options) ∧
        (w.config = defaults → w1.fs.file filename = some default_file)) := by
  refine ⟨configfile_save filename
    ((w.print ("Loading configuration from '".toList ++ filename ++ "'\n".toList)).print
      ("Config file '".toList ++ filename ++ "' not found. Creating it.\n".toList)),
    ?_, ?_, ?_, ?_⟩
  · simp only [configfile_load, World.print, fopen_r, h]
  · rw [configfile_save_config]
    rfl
  · rw [configfile_save_fs, configfile_save_fs]
    rfl
  · intro hw
    have e : (configfile_save filename
        ((w.print ("Loading configuration from '".toList ++ filename ++ "'\n".toList)).print
          ("Config file '".toList ++ filename ++ "' not found. Creating it.\n".toList))).fs.file
        filename = some (save_loop w.config options) := by
      rw [configfile_save_fs]
      simp only [World.print, hw, if_true, FileSystem.write]
    refine ⟨e, ?_⟩
    intro hd
    rw [e, hd, save_loop_defaults]

theorem load_missing_file_creates_witness :
    empty_fs.file cfg = none ∧
    ∃ w1, configfile_load { TARGET_PSP := false, DEBUG := false } cfg
        { config := defaults, fs := empty_fs, stdout := [] } = .ok w1 ∧
      w1.config = defaults ∧
      w1.fs = (configfile_save cfg { config := defaults, fs := empty_fs, stdout := [] }).fs ∧
      (empty_fs.writable cfg = true →
        w1.fs.file cfg = some (save_loop defaults options) ∧
        (defaults = defaults → w1.fs.file cfg = some default_file)) :=
  ⟨rfl, load_missing_file_creates { TARGET_PSP := false, DEBUG := false } cfg
    { config := defaults, fs := empty_fs, stdout := [] } rfl⟩

/-- C10 (save format). When the file can be opened for writing, `configfile_save` leaves in
it exactly the 16 lines the specification lists (name, one space, value; `true` or `false`
for fullscreen, the `%u` numeral for the others; fixed table order), each terminated by a
newline and none containing a newline; the numeral is a decimal numeral of the value and no
decimal numeral of that value is shorter; and no variable changes. -/
theorem configfile_save_format (filename : List Char) (w : World)
    (hw : w.fs.writable filename = true) :
    (configfile_save filename w).fs.file filename = some (unlines (spec_save_lines w.config)) ∧
    (spec_save_lines w.config).length = 16 ∧
    (∀ l ∈ spec_save_lines w.config, NoNewline l) ∧
    (∀ n : Nat, IsNumeral (fmt_u n) ∧ decimal_value (fmt_u n) = n ∧
      ∀ ds, IsNumeral ds → decimal_value ds = n → (fmt_u n).length ≤ ds.length) ∧
    (configfile_save filename w).config = w.config := by
  refine ⟨?_, rfl, ?_, ?_, configfile_save_config filename w⟩
  · rw [configfile_save_fs, ← save_loop_eq_spec]
    simp [hw, FileSystem.write]
  · have hnum : ∀ n, NoNewline (fmt_u n) := fun n => noNewline_of_isNumeral (fmt_u_isNumeral n)
    have happ : ∀ (a b : List Char), NoNewline a → NoNewline b → NoNewline (a ++ b) := by
      intro a b ha hb c hc
      rcases List.mem_append.mp hc with h | h
      · exact ha c h
      · exact hb c h
    have hbool : NoNewline (spec_bool w.config.configFullscreen) := by
      cases w.config.configFullscreen <;> decide
    intro l hl
    simp only [spec_save_lines, List.mem_cons, List.mem_singleton, List.not_mem_nil,
      or_false] at hl
    rcases hl with h | h | h | h | h | h | h | h | h | h | h | h | h | h | h | h <;>
      (subst h; first | exact happ _ _ (by decide) hbool | exact happ _ _ (by decide) (hnum _))
  · intro n
    exact ⟨fmt_u_isNumeral n, fmt_u_value n, fun ds h hv => fmt_u_shortest n ds h hv⟩

theorem configfile_save_format_witness :
    empty_fs.writable cfg = true ∧
    (configfile_save cfg { config := sample_config, fs := empty_fs, stdout := [] }).fs.file cfg =
      some (unlines (spec_save_lines sample_config)) ∧
    (spec_save_lines sample_config).length = 16 ∧
    (∀ l ∈ spec_save_lines sample_config, NoNewline l) ∧
    (∀ n : Nat, IsNumeral (fmt_u n) ∧ decimal_value (fmt_u n) = n ∧
      ∀ ds, IsNumeral ds → decimal_value ds = n → (fmt_u n).length ≤ ds.length) ∧
    (configfile_save cfg { config := sample_config, fs := empty_fs, stdout := [] }).config =
      sample_config :=
  ⟨rfl, configfile_save_format cfg { config := sample_config, fs := empty_fs, stdout := [] } rfl⟩

/-- C7 (bool parsing). For the file whose only line is `fullscreen v`, with or without final
newline, for every word `v` of any length: `configfile_load` returns normally, with
`configFullscreen` true when `v` is exactly `true`, false when `v` is exactly `false`,
unchanged otherwise; no other variable changes. -/
theorem fullscreen_value_exact (b : Build) (filename v eol : List Char) (w : World)
    (hv : IsWord v) (heol : eol = [] ∨ eol = ['\n'])
    (hf : w.fs.file filename = some ("fullscreen ".toList ++ v ++ eol)) :
    ∃ w1, configfile_load b filename w = .ok w1 ∧
      w1.config =
        (if v = "true".toList then { w.config with configFullscreen := true }
         else if v = "false".toList then { w.config with configFullscreen := false }
         else w.config) := by
  have htext : "fullscreen ".toList ++ v ++ eol = "fullscreen".toList ++ ' ' :: (v ++ eol) := by
    simp
  rw [configfile_load_existing b filename _ w hf, htext]
  obtain ⟨w1, e1, c1, _⟩ := load_text_name_value b "fullscreen".toList v eol
    (w.print ("Loading configuration from '".toList ++ filename ++ "'\n".toList))
    (by decide) (by decide) hv heol
  refine ⟨w1, e1, ?_⟩
  rw [c1, (apply_pair_found b "fullscreen".toList _ _ (.bool "fullscreen".toList .configFullscreen)
    rfl).1]
  have h1 : v.take (62 - "fullscreen".toList.length) = "true".toList ↔ v = "true".toList :=
    take_eq_literal v _ _ (by decide)
  have h2 : v.take (62 - "fullscreen".toList.length) = "false".toList ↔ v = "false".toList :=
    take_eq_literal v _ _ (by decide)
  simp only [store_value, h1, h2, BoolVar.set, World.print]

theorem fullscreen_value_exact_witness :
    IsWord "truex".toList ∧ (['\n'] = [] ∨ ['\n'] = ['\n']) ∧
    (fs_with "fullscreen truex\n".toList).file cfg =
      some ("fullscreen ".toList ++ "truex".toList ++ ['\n']) ∧
    ∃ w1, configfile_load { TARGET_PSP := false, DEBUG := false } cfg
        { config := sample_config, fs := fs_with "fullscreen truex\n".toList, stdout := [] } =
          .ok w1 ∧
      w1.config =
        (if "truex".toList = "true".toList then { sample_config with configFullscreen := true }
         else if "truex".toList = "false".toList then
          { sample_config with configFullscreen := false }
         else sample_config) :=
  ⟨by decide, Or.inr rfl, rfl,
    fullscreen_value_exact { TARGET_PSP := false, DEBUG := false } cfg "truex".toList ['\n']
      { config := sample_config, fs := fs_with "fullscreen truex\n".toList, stdout := [] }
      (by decide) (Or.inr rfl) rfl⟩

/-- C8 as stated fails. On a `TARGET_PSP` build the line `key_a notanumber` sets `key_a`
to 0 (the code assigns the result of `strtoul`); on the other builds the token `+5`, which
does not start with a decimal numeral, is converted by `%u` and `key_a` becomes 5. -/
theorem malformed_uint_counterexample :
    (∃ w1, configfile_load { TARGET_PSP := true, DEBUG := false } cfg
        { config := defaults, fs := fs_with "key_a notanumber\n".toList, stdout := [] } = .ok w1 ∧
      w1.config.configKeyA = 0 ∧ defaults.configKeyA = 16384) ∧
    (∃ w1, configfile_load { TARGET_PSP := false, DEBUG := false } cfg
        { config := defaults, fs := fs_with "key_a +5\n".toList, stdout := [] } = .ok w1 ∧
      w1.config.configKeyA = 5 ∧ defaults.configKeyA = 16384) :=
  ⟨⟨_, rfl, rfl, rfl⟩, ⟨_, rfl, rfl, rfl⟩⟩

/-- C8 (amended). On a build without `TARGET_PSP`, for every unsigned option `name` of the
table and every word `tok` of any length that does not start with a decimal digit, nor
with a sign followed by a decimal digit: loading the file whose only line is `name tok`,
with or without final newline, returns normally and changes no variable. -/
theorem malformed_uint_value (b : Build) (filename name tok eol : List Char) (p : UIntVar)
    (w : World) (hb : b.TARGET_PSP = false) (ho : ConfigOption.uint name p ∈ options)
    (htok : IsWord tok) (hmal : starts_numeral tok = false) (heol : eol = [] ∨ eol = ['\n'])
    (hf : w.fs.file filename = some (name ++ ' ' :: (tok ++ eol))) :
    ∃ w1, configfile_load b filename w = .ok w1 ∧ w1.config = w.config := by
  obtain ⟨hfind, hword, _, hlen⟩ := options_facts _ ho
  simp only [ConfigOption.name] at hfind hword hlen
  rw [configfile_load_existing b filename _ w hf]
  obtain ⟨w1, e1, c1, _⟩ := load_text_name_value b name tok eol
    (w.print ("Loading configuration from '".toList ++ filename ++ "'\n".toList))
    hword hlen htok heol
  refine ⟨w1, e1, ?_⟩
  have hw2 : IsWord (tok.take (62 - name.length)) := by
    refine ⟨?_, NoSpace_take htok.2.1 _, NoNUL_take htok.2.2 _⟩
    cases tok with
    | nil => exact absurd rfl htok.1
    | cons c t =>
      have : 62 - name.length = (61 - name.length) + 1 := by omega
      rw [this]; simp
  have hm2 : starts_numeral (tok.take (62 - name.length)) = false := by
    rw [starts_numeral_take tok _ (by omega)]; exact hmal
  rw [c1, (apply_pair_found b name _ _ _ hfind).1, store_value_malformed b _ name _ p hw2 hm2,
    hb]
  rfl

theorem malformed_uint_value_witness :
    ({ TARGET_PSP := false, DEBUG := true } : Build).TARGET_PSP = false ∧
    ConfigOption.uint "key_a".toList UIntVar.configKeyA ∈ options ∧
    IsWord "notanumber".toList ∧ starts_numeral "notanumber".toList = false ∧
    (['\n'] = [] ∨ ['\n'] = ['\n']) ∧
    (fs_with "key_a notanumber\n".toList).file cfg =
      some ("key_a".toList ++ ' ' :: ("notanumber".toList ++ ['\n'])) ∧
    ∃ w1, configfile_load { TARGET_PSP := false, DEBUG := true } cfg
        { config := sample_config, fs := fs_with "key_a notanumber\n".toList, stdout := [] } =
          .ok w1 ∧
      w1.config = sample_config :=
  ⟨rfl, by simp [options], by decide, by decide, Or.inr rfl, rfl,
    malformed_uint_value { TARGET_PSP := false, DEBUG := true } cfg "key_a".toList
      "notanumber".toList ['\n'] UIntVar.configKeyA
      { config := sample_config, fs := fs_with "key_a notanumber\n".toList, stdout := [] }
      rfl (by simp [options]) (by decide) (by decide) (Or.inr rfl) rfl⟩

/-- C4 as stated fails. A line whose first token is not an option name is not always reported
as an unknown option: the one-token line `foo` is reported as `error: expected value`. And
a long one can change a variable: after `foo`, 60 spaces and `key_a 7` the variable
`configKeyA` is 7, while without that line it keeps its value 16384. -/
theorem unknown_key_counterexample :
    (∃ w1, configfile_load { TARGET_PSP := false, DEBUG := false } cfg
        { config := defaults, fs := fs_with "foo\nkey_b 6\n".toList, stdout := [] } = .ok w1 ∧
      w1.stdout =
        "Loading configuration from 'sm64config.txt'\nerror: expected value\n".toList) ∧
    (∀ o ∈ options, o.name ≠ "foo".toList) ∧
    (∃ w1, configfile_load { TARGET_PSP := false, DEBUG := false } cfg
        { config := defaults, fs := fs_with (long_unknown_line ++ "\nkey_b 6\n".toList),
          stdout := [] } = .ok w1 ∧
      w1.config.configKeyA = 7) ∧
    (∃ w1, configfile_load { TARGET_PSP := false, DEBUG := false } cfg
        { config := defaults, fs := fs_with "key_b 6\n".toList, stdout := [] } = .ok w1 ∧
      w1.config.configKeyA = 16384) :=
  ⟨⟨_, rfl, rfl⟩, by decide, ⟨_, rfl, rfl⟩, ⟨_, rfl, rfl⟩⟩

/-- C4 (amended). Take a file made of a part that is empty or ends with a newline and of a
remainder, and insert between them a line of at most 62 characters, without NUL, that has
two tokens or more, the first of which is not an option name. If loading the file without
the line stops on a failed assertion, so does loading it with the line; otherwise loading
it with the line returns normally with the same variables, and its output is the output
without the line, with `unknown option '<first token>'` inserted right after what the
first part printed. -/
theorem unknown_option_line_skipped (b : Build)
    (filename pre post ws1 t0 ws2 t1 r : List Char) (c : Config) (fs1 fs2 : FileSystem)
    (out : List Char) (hpre : LineClosed pre) (h1 : AllSpace ws1) (h0 : IsWord t0)
    (h2 : AllSpace ws2) (hne2 : ws2 ≠ []) (h3 : IsWord t1) (hr : SpaceOrEnd r)
    (hn : NoNewline (ws1 ++ t0 ++ ws2 ++ t1 ++ r)) (hz : NoNUL (ws1 ++ t0 ++ ws2 ++ t1 ++ r))
    (hlen : (ws1 ++ t0 ++ ws2 ++ t1 ++ r).length ≤ 62)
    (hunknown : ∀ o ∈ options, o.name ≠ t0)
    (hf1 : fs1.file filename = some (pre ++ post))
    (hf2 : fs2.file filename = some (pre ++ (ws1 ++ t0 ++ ws2 ++ t1 ++ r ++ '\n' :: post))) :
    match configfile_load b filename { config := c, fs := fs1, stdout := out } with
    | .error e => configfile_load b filename { config := c, fs := fs2, stdout := out } = .error e
    | .ok w1 =>
      ∃ o1 o2, w1.stdout = o1 ++ o2 ∧
        configfile_load b filename { config := c, fs := fs2, stdout := out } =
          .ok { config := w1.config, fs := fs2,
                stdout := o1 ++ ("unknown option '".toList ++ t0 ++ "'\n".toList) ++ o2 } ∧
        ∃ wa, load_text b pre
            { config := c, fs := fs1,
              stdout := out ++
                ("Loading configuration from '".toList ++ filename ++ "'\n".toList) } = .ok wa ∧
          wa.stdout = o1 := by
  rw [configfile_load_existing b filename _ ⟨c, fs1, out⟩ hf1,
    configfile_load_existing b filename _ ⟨c, fs2, out⟩ hf2]
  simp only [World.print]
  rw [load_text_append b pre post _ hpre, load_text_append b pre _ _ hpre]
  rw [load_text_absorb b pre ⟨c, fs1, _⟩, load_text_absorb b pre ⟨c, fs2, _⟩]
  simp only []
  cases load_text b pre (bare c) with
  | error e => rfl
  | ok ra =>
    simp only [Except.map]
    rw [load_text_two_tokens b ws1 t0 ws2 t1 r post _ h1 h0.1 h0.2.1 h2 hne2 h3.1 h3.2.1 hr hn
      hz hlen]
    have hap : ∀ w : World, apply_pair b t0 t1 w =
        w.print ("unknown option '".toList ++ t0 ++ "'\n".toList) := by
      intro w
      simp only [apply_pair, find_option_none t0 options hunknown]
    rw [hap, load_text_absorb b post (World.absorb _ ra), load_text_absorb b post (World.print _ _)]
    simp only [World.absorb, World.print]
    cases load_text b post (bare ra.config) with
    | error e => rfl
    | ok rb =>
      simp only [Except.map]
      exact ⟨_, _, rfl, rfl, _, rfl, rfl⟩

theorem unknown_option_line_skipped_witness :
    LineClosed "key_a 5\n".toList ∧ AllSpace [] ∧ IsWord "foo".toList ∧ AllSpace [' '] ∧
    [' '] ≠ [] ∧ IsWord "1".toList ∧ SpaceOrEnd [] ∧
    NoNewline ([] ++ "foo".toList ++ [' '] ++ "1".toList ++ []) ∧
    NoNUL ([] ++ "foo".toList ++ [' '] ++ "1".toList ++ []) ∧
    ([] ++ "foo".toList ++ [' '] ++ "1".toList ++ []).length ≤ 62 ∧
    (∀ o ∈ options, o.name ≠ "foo".toList) ∧
    (fs_with "key_a 5\nkey_b 6\n".toList).file cfg =
      some ("key_a 5\n".toList ++ "key_b 6\n".toList) ∧
    (fs_with "key_a 5\nfoo 1\nkey_b 6\n".toList).file cfg =
      some ("key_a 5\n".toList ++
        ([] ++ "foo".toList ++ [' '] ++ "1".toList ++ [] ++ '\n' :: "key_b 6\n".toList)) ∧
    match configfile_load { TARGET_PSP := false, DEBUG := true } cfg
        { config := defaults, fs := fs_with "key_a 5\nkey_b 6\n".toList, stdout := [] } with
    | .error e =>
      configfile_load { TARGET_PSP := false, DEBUG := true } cfg
        { config := defaults, fs := fs_with "key_a 5\nfoo 1\nkey_b 6\n".toList, stdout := [] } =
          .error e
    | .ok w1 =>
      ∃ o1 o2, w1.stdout = o1 ++ o2 ∧
        configfile_load { TARGET_PSP := false, DEBUG := true } cfg
            { config := defaults, fs := fs_with "key_a 5\nfoo 1\nkey_b 6\n".toList,
              stdout := [] } =
          .ok { config := w1.config, fs := fs_with "key_a 5\nfoo 1\nkey_b 6\n".toList,
                stdout := o1 ++ ("unknown option '".toList ++ "foo".toList ++ "'\n".toList) ++
                  o2 } ∧
        ∃ wa, load_text { TARGET_PSP := false, DEBUG := true } "key_a 5\n".toList
            { config := defaults, fs := fs_with "key_a 5\nkey_b 6\n".toList,
              stdout := [] ++
                ("Loading configuration from '".toList ++ cfg ++ "'\n".toList) } = .ok wa ∧
          wa.stdout = o1 :=
  ⟨by decide, by decide, by decide, by decide, by decide, by decide, by decide, by decide,
    by decide, by decide, by decide, rfl, rfl,
    unknown_option_line_skipped { TARGET_PSP := false, DEBUG := true } cfg "key_a 5\n".toList
      "key_b 6\n".toList [] "foo".toList [' '] "1".toList [] defaults
      (fs_with "key_a 5\nkey_b 6\n".toList) (fs_with "key_a 5\nfoo 1\nkey_b 6\n".toList) []
      (by decide) (by decide) (by decide) (by decide) (by decide) (by decide) (by decide)
      (by decide) (by decide) (by decide) (by decide) rfl rfl⟩

/-- C5: the code at a failing input. In the file whose only line is 63 letters `x`
directly followed by `key_a 5`, no whitespace-delimited token is `key_a`; `read_file_line`
returns the 63 letters as one line and `key_a 5` as the next, and after the load
`configKeyA` is 5 instead of its value before, 16384. -/
theorem glued_name_is_assigned :
    words glued_line = [List.replicate 63 'x' ++ "key_a".toList, "5".toList] ∧
    "key_a".toList ∉ words glued_line ∧
    read_file_line { rest := glued_line, eof := false } =
      .ok (some (List.replicate 63 'x'), { rest := "key_a 5\n".toList, eof := false }) ∧
    ∃ w1, configfile_load { TARGET_PSP := false, DEBUG := false } cfg
        { config := defaults, fs := fs_with glued_line, stdout := [] } = .ok w1 ∧
      w1.config.configKeyA = 5 ∧ defaults.configKeyA = 16384 :=
  ⟨by decide, by decide, rfl, ⟨_, rfl, rfl, rfl⟩⟩

/-- C6: the code at a failing input. The file whose only line is `key_a 5` after 60 spaces
(68 characters with the newline) is read as two lines, the 60 spaces with `key` and then
`_a 5`; `configKeyA` keeps its value 16384 instead of becoming 5, and the output reports
a missing value and an unknown option `_a`. -/
theorem long_line_is_split :
    AllSpace (List.replicate 60 ' ') ∧
    read_file_line { rest := long_line, eof := false } =
      .ok (some (List.replicate 60 ' ' ++ "key".toList),
        { rest := "_a 5\n".toList, eof := false }) ∧
    ∃ w1, configfile_load { TARGET_PSP := false, DEBUG := false } cfg
        { config := defaults, fs := fs_with long_line, stdout := [] } = .ok w1 ∧
      w1.config = defaults ∧ defaults.configKeyA = 16384 ∧
      w1.stdout =
        ("Loading configuration from 'sm64config.txt'\nerror: expected value\n" ++
          "unknown option '_a'\n").toList :=
  ⟨by decide, rfl, ⟨_, rfl, rfl, rfl, rfl⟩⟩

/-- C13: the code at a failing input. The lines `key_a 1` and 63 letters `x` glued to
`key_a 2` have different first tokens, only one of them an option name. In the order
short, long the load ends with `configKeyA` = 2; in the order long, short it ends with
`configKeyA` = 1, because the long line is read as two lines, the second being `key_a 2`. -/
theorem line_order_matters :
    List.Perm [short_line, glued_line_2] [glued_line_2, short_line] ∧
    (words short_line).head? = some "key_a".toList ∧
    (words glued_line_2).head? = some (List.replicate 63 'x' ++ "key_a".toList) ∧
    (∀ o ∈ options, o.name ≠ List.replicate 63 'x' ++ "key_a".toList) ∧
    (∃ w1, configfile_load { TARGET_PSP := false, DEBUG := false } cfg
        { config := defaults, fs := fs_with (unlines [short_line, glued_line_2]), stdout := [] } =
          .ok w1 ∧ w1.config.configKeyA = 2) ∧
    (∃ w2, configfile_load { TARGET_PSP := false, DEBUG := false } cfg
        { config := defaults, fs := fs_with (unlines [glued_line_2, short_line]), stdout := [] } =
          .ok w2 ∧ w2.config.configKeyA = 1) :=
  ⟨List.Perm.swap _ _ _, by decide, by decide, by decide, ⟨_, rfl, rfl⟩, ⟨_, rfl, rfl⟩⟩

/-- C17: the code at failing inputs. From `key_a 5` with its newline, followed by another
line, `read_file_line` returns `key_a 5` with the newline still at its end; from the line of
68 characters it returns the first 63 characters only and leaves the rest of the line in
the stream. It does return NULL when no character remains. -/
theorem read_file_line_keeps_newline :
    read_file_line { rest := "key_a 5\nkey_b 6\n".toList, eof := false } =
      .ok (some "key_a 5\n".toList, { rest := "key_b 6\n".toList, eof := false }) ∧
    read_file_line { rest := long_line, eof := false } =
      .ok (some (List.replicate 60 ' ' ++ "key".toList),
        { rest := "_a 5\n".toList, eof := false }) ∧
    read_file_line { rest := [], eof := false } = .ok (none, { rest := [], eof := true }) :=
  ⟨rfl, rfl, rfl⟩

/-- For every string and every `maxTokens`, `tokenize_string` returns normally the first
`maxTokens` whitespace-delimited words of the string, all of them when there are fewer
(none when `maxTokens` is not positive); every token is non-empty and without white
space. -/
theorem tokenize_string_take_words (str : List Char) (maxTokens : Int) :
    tokenize_string str maxTokens = .ok ((words str).take maxTokens.toNat) ∧
      ((words str).take maxTokens.toNat).length = min maxTokens.toNat (words str).length ∧
      (∀ t ∈ (words str).take maxTokens.toNat, t ≠ [] ∧ NoSpace t) :=
  ⟨tokenize_string_eq_words str maxTokens, List.length_take _ _,
    fun t ht => words_are_words str.length str (Nat.le_refl _) t (List.mem_of_mem_take ht)⟩

/-- C18. For every string and every `maxTokens` that is the length of an array (1 or
more), `tokenize_string` returns normally the first min(maxTokens, w) whitespace-delimited
words of the string, w being their number: the count is at most `maxTokens`; it is 0
exactly when the string is empty or all white space; every token is non-empty and without
white space; words beyond `maxTokens` are ignored, as for `key_a 5 extra` with 2. -/
theorem tokenize_string_returns_first_words (str : List Char) (maxTokens : Int)
    (h : 1 ≤ maxTokens) :
    ∃ tokens, tokenize_string str maxTokens = .ok tokens ∧
      tokens = (words str).take maxTokens.toNat ∧
      (tokens.length : Int) = min maxTokens ((words str).length : Int) ∧
      (tokens.length : Int) ≤ maxTokens ∧
      (tokens.length = 0 ↔ (str = [] ∨ AllSpace str)) ∧
      (∀ t ∈ tokens, t ≠ [] ∧ NoSpace t) ∧
      tokenize_string "key_a 5 extra".toList 2 = .ok ["key_a".toList, "5".toList] := by
  obtain ⟨h1, h2, h3⟩ := tokenize_string_take_words str maxTokens
  refine ⟨_, h1, rfl, ?_, ?_, ?_, h3, rfl⟩
  · rw [h2]; omega
  · rw [h2]; omega
  · rw [h2]
    have hw := words_eq_nil_iff str
    constructor
    · intro h0
      right
      apply hw.mp
      apply List.length_eq_zero.mp
      omega
    · intro h0
      have hall : AllSpace str := by
        rcases h0 with e | e
        · rw [e]; intro c hc; simp at hc
        · exact e
      rw [hw.mpr hall]; simp

theorem tokenize_string_returns_first_words_witness :
    (1 : Int) ≤ 2 ∧
    ∃ tokens, tokenize_string " key_a\t5  extra \n".toList 2 = .ok tokens ∧
      tokens = (words " key_a\t5  extra \n".toList).take (2 : Int).toNat ∧
      (tokens.length : Int) = min 2 ((words " key_a\t5  extra \n".toList).length : Int) ∧
      (tokens.length : Int) ≤ 2 ∧
      (tokens.length = 0 ↔
        (" key_a\t5  extra \n".toList = [] ∨ AllSpace " key_a\t5  extra \n".toList)) ∧
      (∀ t ∈ tokens, t ≠ [] ∧ NoSpace t) ∧
      tokenize_string "key_a 5 extra".toList 2 = .ok ["key_a".toList, "5".toList] :=
  ⟨by decide, tokenize_string_returns_first_words " key_a\t5  extra \n".toList 2 (by decide)⟩

/-- C19. `word_split` stops on its assertion exactly when its argument points at a white
space character; `tokenize_string` returns normally for every string and every
`maxTokens`, so no call it makes fails the assertion, and its loops are bounded by
`maxTokens` and by the length of the string; and `configfile_load` never ends on that
assertion, nor with its loop budget used up. -/
theorem word_split_assertion_holds :
    (∀ str : List Char, word_split str = .error .assert_not_whitespace ↔
      ∃ c cs, str = c :: cs ∧ isspace c = true) ∧
    (∀ (str : List Char) (maxTokens : Int), ∃ tokens, tokenize_string str maxTokens = .ok tokens) ∧
    (∀ (b : Build) (filename : List Char) (w : World),
      configfile_load b filename w ≠ .error .assert_not_whitespace ∧
      configfile_load b filename w ≠ .error .out_of_fuel) := by
  refine ⟨?_, fun str n => ⟨_, tokenize_string_eq_words str n⟩, ?_⟩
  · intro str
    cases str with
    | nil => simp [word_split, word_end]
    | cons c cs =>
      by_cases hc : isspace c = true
      · simp [word_split, hc]
      · have hc1 : isspace c = false := by simpa using hc
        obtain ⟨t, r, _, _, _, _, _, hs⟩ := first_word_split c cs hc1
        simp [hs, hc1]
  · intro b filename w
    unfold configfile_load
    simp only []
    cases hf : fopen_r (w.print ("Loading configuration from '".toList ++ filename ++
        "'\n".toList)).fs filename with
    | none => simp
    | some file =>
      simp only []
      rcases load_loop_faults b (file.rest.length + 1) file.rest file.eof
        (w.print ("Loading configuration from '".toList ++ filename ++ "'\n".toList))
        (Nat.lt_succ_self _) with ⟨w1, h⟩ | h
      · rw [h]; simp
      · rw [h]; simp

theorem LineClosed_append_newline (l : List Char) : LineClosed (l ++ ['\n']) := by
  simp [LineClosed]

/-- C11 (empty and whitespace-only lines). Take a file made of a part that is empty or ends
with a newline and of a remainder, and insert between them a line made only of white space
characters, of any length, or an empty line: `configfile_load` ends the same way, with the
same variables and the same output (the world differs by the file alone). -/
theorem blank_line_skipped (b : Build) (filename pre post ws : List Char) (c : Config)
    (fs1 fs2 : FileSystem) (out : List Char) (hpre : LineClosed pre) (hws : AllSpace ws)
    (hn : NoNewline ws) (hf1 : fs1.file filename = some (pre ++ post))
    (hf2 : fs2.file filename = some (pre ++ (ws ++ '\n' :: post))) :
    configfile_load b filename { config := c, fs := fs2, stdout := out } =
      (configfile_load b filename { config := c, fs := fs1, stdout := out }).map
        (fun w => { w with fs := fs2 }) := by
  rw [configfile_load_existing b filename _ ⟨c, fs1, out⟩ hf1,
    configfile_load_existing b filename _ ⟨c, fs2, out⟩ hf2]
  simp only [World.print]
  rw [load_text_append b pre post _ hpre, load_text_append b pre _ _ hpre]
  rw [load_text_absorb b pre ⟨c, fs1, _⟩, load_text_absorb b pre ⟨c, fs2, _⟩]
  simp only []
  cases load_text b pre (bare c) with
  | error e => rfl
  | ok ra =>
    simp only [Except.map]
    have e : ws ++ '\n' :: post = (ws ++ ['\n']) ++ post := by simp
    rw [e, load_text_append b _ post _ (LineClosed_append_newline ws)]
    obtain ⟨k, hk, hk0, _, _⟩ := load_text_single b ['\n'] (Or.inr rfl) _ ws [] []
      (World.absorb ⟨c, fs2, out ++ ("Loading configuration from '".toList ++ filename ++
        "'\n".toList)⟩ ra) (Nat.le_refl _) hws hn
      (by intro x hx; simp at hx) (by intro x hx; simp at hx) (by intro x hx; simp at hx)
      (by intro x hx; simp at hx)
    simp only [List.append_nil] at hk
    rw [hk, hk0 rfl, reports, print_nil]
    simp only []
    rw [load_text_absorb b post (World.absorb ⟨c, fs1, _⟩ ra),
      load_text_absorb b post (World.absorb ⟨c, fs2, _⟩ ra)]
    simp only [World.absorb]
    cases load_text b post (bare ra.config) with
    | error e => rfl
    | ok rb => rfl

theorem blank_line_skipped_witness :
    LineClosed "key_a 5\n".toList ∧ AllSpace " \t \r".toList ∧ NoNewline " \t \r".toList ∧
    (fs_with "key_a 5\nfoo 1\n".toList).file cfg =
      some ("key_a 5\n".toList ++ "foo 1\n".toList) ∧
    (fs_with "key_a 5\n \t \r\nfoo 1\n".toList).file cfg =
      some ("key_a 5\n".toList ++ (" \t \r".toList ++ '\n' :: "foo 1\n".toList)) ∧
    configfile_load { TARGET_PSP := false, DEBUG := false } cfg
        { config := defaults, fs := fs_with "key_a 5\n \t \r\nfoo 1\n".toList, stdout := [] } =
      (configfile_load { TARGET_PSP := false, DEBUG := false } cfg
          { config := defaults, fs := fs_with "key_a 5\nfoo 1\n".toList, stdout := [] }).map
        (fun w => { w with fs := fs_with "key_a 5\n \t \r\nfoo 1\n".toList }) :=
  ⟨by decide, by decide, by decide, rfl, rfl,
    blank_line_skipped { TARGET_PSP := false, DEBUG := false } cfg "key_a 5\n".toList
      "foo 1\n".toList " \t \r".toList defaults (fs_with "key_a 5\nfoo 1\n".toList)
      (fs_with "key_a 5\n \t \r\nfoo 1\n".toList) [] (by decide) (by decide) (by decide)
      rfl rfl⟩

/-- C12 (one-token line). Take a file made of a part that is empty or ends with a newline
and of a remainder, and insert between them a line that holds exactly one token (a word
between white space), of any length. If loading the file without the line stops on a
failed assertion, so does loading it with the line; otherwise loading it with the line
returns normally with the same variables, and its output is the output without the line
with `error: expected value` inserted right after what the first part printed: once when
the line has at most 62 characters, once or more when it is longer. -/
theorem one_token_line_reported (b : Build) (filename pre post a t c : List Char)
    (s : Config) (fs1 fs2 : FileSystem) (out : List Char) (hpre : LineClosed pre)
    (ha : AllSpace a) (hna : NoNewline a) (ht : IsWord t) (hc : AllSpace c) (hnc : NoNewline c)
    (hf1 : fs1.file filename = some (pre ++ post))
    (hf2 : fs2.file filename = some (pre ++ (a ++ t ++ c ++ '\n' :: post))) :
    match configfile_load b filename { config := s, fs := fs1, stdout := out } with
    | .error e => configfile_load b filename { config := s, fs := fs2, stdout := out } = .error e
    | .ok w1 =>
      ∃ o1 o2 k, 1 ≤ k ∧ ((a ++ t ++ c).length ≤ 62 → k = 1) ∧ w1.stdout = o1 ++ o2 ∧
        configfile_load b filename { config := s, fs := fs2, stdout := out } =
          .ok { config := w1.config, fs := fs2, stdout := o1 ++ reports k ++ o2 } ∧
        ∃ wa, load_text b pre
            { config := s, fs := fs1,
              stdout := out ++
                ("Loading configuration from '".toList ++ filename ++ "'\n".toList) } = .ok wa ∧
          wa.stdout = o1 := by
  rw [configfile_load_existing b filename _ ⟨s, fs1, out⟩ hf1,
    configfile_load_existing b filename _ ⟨s, fs2, out⟩ hf2]
  simp only [World.print]
  rw [load_text_append b pre post _ hpre, load_text_append b pre _ _ hpre]
  rw [load_text_absorb b pre ⟨s, fs1, _⟩, load_text_absorb b pre ⟨s, fs2, _⟩]
  simp only []
  cases load_text b pre (bare s) with
  | error e => rfl
  | ok ra =>
    simp only [Except.map]
    have e : a ++ t ++ c ++ '\n' :: post = (a ++ t ++ c ++ ['\n']) ++ post := by simp
    rw [e, load_text_append b _ post _ (LineClosed_append_newline (a ++ t ++ c))]
    obtain ⟨k, hk, _, hk1, hk62⟩ := load_text_single b ['\n'] (Or.inr rfl) _ a t c
      (World.absorb ⟨s, fs2, out ++ ("Loading configuration from '".toList ++ filename ++
        "'\n".toList)⟩ ra) (Nat.le_refl _) ha hna ht.2.1 ht.2.2 hc hnc
    rw [hk]
    simp only []
    rw [load_text_absorb b post (World.absorb _ ra), load_text_absorb b post (World.print _ _)]
    simp only [World.absorb, World.print]
    cases load_text b post (bare ra.config) with
    | error e => rfl
    | ok rb =>
      simp only [Except.map]
      have h1 := hk1 ht.1
      exact ⟨_, _, k, h1, fun h => Nat.le_antisymm (hk62 h) h1, rfl, rfl, _, rfl, rfl⟩

theorem one_token_line_reported_witness :
    LineClosed "key_a 5\n".toList ∧ AllSpace [' '] ∧ NoNewline [' '] ∧ IsWord "key_b".toList ∧
    AllSpace ['\t'] ∧ NoNewline ['\t'] ∧
    (fs_with "key_a 5\nkey_z 9\n".toList).file cfg =
      some ("key_a 5\n".toList ++ "key_z 9\n".toList) ∧
    (fs_with "key_a 5\n key_b\t\nkey_z 9\n".toList).file cfg =
      some ("key_a 5\n".toList ++
        ([' '] ++ "key_b".toList ++ ['\t'] ++ '\n' :: "key_z 9\n".toList)) ∧
    match configfile_load { TARGET_PSP := false, DEBUG := false } cfg
        { config := defaults, fs := fs_with "key_a 5\nkey_z 9\n".toList, stdout := [] } with
    | .error e =>
      configfile_load { TARGET_PSP := false, DEBUG := false } cfg
        { config := defaults, fs := fs_with "key_a 5\n key_b\t\nkey_z 9\n".toList,
          stdout := [] } = .error e
    | .ok w1 =>
      ∃ o1 o2 k, 1 ≤ k ∧ (([' '] ++ "key_b".toList ++ ['\t']).length ≤ 62 → k = 1) ∧
        w1.stdout = o1 ++ o2 ∧
        configfile_load { TARGET_PSP := false, DEBUG := false } cfg
            { config := defaults, fs := fs_with "key_a 5\n key_b\t\nkey_z 9\n".toList,
              stdout := [] } =
          .ok { config := w1.config, fs := fs_with "key_a 5\n key_b\t\nkey_z 9\n".toList,
                stdout := o1 ++ reports k ++ o2 } ∧
        ∃ wa, load_text { TARGET_PSP := false, DEBUG := false } "key_a 5\n".toList
            { config := defaults, fs := fs_with "key_a 5\nkey_z 9\n".toList,
              stdout := [] ++
                ("Loading configuration from '".toList ++ cfg ++ "'\n".toList) } = .ok wa ∧
          wa.stdout = o1 :=
  ⟨by decide, by decide, by decide, by decide, by decide, by decide, rfl, rfl,
    one_token_line_reported { TARGET_PSP := false, DEBUG := false } cfg "key_a 5\n".toList
      "key_z 9\n".toList [' '] "key_b".toList ['\t'] defaults
      (fs_with "key_a 5\nkey_z 9\n".toList) (fs_with "key_a 5\n key_b\t\nkey_z 9\n".toList) []
      (by decide) (by decide) (by decide) (by decide) (by decide) (by decide) rfl rfl⟩

theorem configfile_load_core (b : Build) (filename text : List Char) (w : World)
    (h : w.fs.file filename = some text) :
    configfile_load b filename w =
      (load_text b text (bare w.config)).map
        (World.absorb
          (w.print ("Loading configuration from '".toList ++ filename ++ "'\n".toList))) := by
  rw [configfile_load_existing b filename text w h, load_text_absorb]
  rfl

theorem load_text_core_append (b : Build) (f1 f2 : List Char) (s : Config)
    (h1 : LineClosed f1) :
    load_text b (f1 ++ f2) (bare s) =
      match load_text b f1 (bare s) with
      | .error e => .error e
      | .ok ra => (load_text b f2 (bare ra.config)).map ra.absorb := by
  rw [load_text_append b f1 f2 _ h1]
  cases load_text b f1 (bare s) with
  | error e => rfl
  | ok ra =>
    simp only []
    rw [load_text_absorb]

theorem map_config_absorb (x : Except Fault World) (w : World) :
    (x.map w.absorb).map World.config = x.map World.config := by
  cases x <;> rfl

/-- Loading is sequential. For a file `f1` that is empty or ends with a newline and any file
`f2`, on every build: if loading `f1` stops on a failed assertion so does loading
`f1 ++ f2`; otherwise loading `f1 ++ f2` ends as loading `f2` from the variables that
loading `f1` left (same final variables, or the same failed assertion). -/
theorem load_sequential_law (b : Build) (filename f1 f2 : List Char) (s : Config)
    (fs1 fs2 fs12 : FileSystem) (out out2 : List Char) (h1 : LineClosed f1)
    (hf1 : fs1.file filename = some f1) (hf2 : fs2.file filename = some f2)
    (hf12 : fs12.file filename = some (f1 ++ f2)) :
    match configfile_load b filename { config := s, fs := fs1, stdout := out } with
    | .error e =>
      configfile_load b filename { config := s, fs := fs12, stdout := out } = .error e
    | .ok w1 =>
      (configfile_load b filename { config := s, fs := fs12, stdout := out }).map World.config =
        (configfile_load b filename { config := w1.config, fs := fs2, stdout := out2 }).map
          World.config := by
  have e1 := configfile_load_core b filename f1 ⟨s, fs1, out⟩ hf1
  have e12 := configfile_load_core b filename (f1 ++ f2) ⟨s, fs12, out⟩ hf12
  simp only [] at e1 e12
  rw [load_text_core_append b f1 f2 s h1] at e12
  cases hcore : load_text b f1 (bare s) with
  | error e =>
    rw [hcore] at e1 e12
    rw [e1, e12]
    rfl
  | ok ra =>
    rw [hcore] at e1 e12
    simp only [] at e12
    rw [e1]
    simp only [Except.map]
    have hseq : (configfile_load b filename { config := s, fs := fs12, stdout := out }).map
        World.config =
        (configfile_load b filename
          { config := (World.absorb (World.print ⟨s, fs1, out⟩
              ("Loading configuration from '".toList ++ filename ++ "'\n".toList)) ra).config,
            fs := fs2, stdout := out2 }).map World.config := by
      rw [e12, configfile_load_core b filename f2 ⟨_, fs2, out2⟩ hf2, map_config_absorb,
        map_config_absorb, map_config_absorb]
      rfl
    exact hseq

/-- C16: the code at failing inputs. After the line `key_a 5`, the later line `key_a`,
57 spaces, `77` assigns 77 to `key_a`, yet the load ends with `configKeyA` = 7; the later
line `key_a` with the numeral of 57 zeros and `005`, of value 5, ends with `configKeyA` = 0;
and the later line `foo`, 60 spaces, `key_a 16384`, whose name is unknown, puts `configKeyA`
back to 16384, the value it had before `key_a 5`. Each later line is read in two pieces. -/
theorem later_long_line_is_cut :
    words spaced_assignment = ["key_a".toList, "77".toList] ∧
    (∃ w, configfile_load { TARGET_PSP := false, DEBUG := false } cfg
        { config := defaults,
          fs := fs_with ("key_a 5\n".toList ++ spaced_assignment ++ "\n".toList),
          stdout := [] } = .ok w ∧ w.config.configKeyA = 7) ∧
    words padded_assignment = ["key_a".toList, List.replicate 57 '0' ++ "005".toList] ∧
    IsNumeral (List.replicate 57 '0' ++ "005".toList) ∧
    decimal_value (List.replicate 57 '0' ++ "005".toList) = 5 ∧
    (∃ w, configfile_load { TARGET_PSP := false, DEBUG := false } cfg
        { config := defaults,
          fs := fs_with ("key_a 5\n".toList ++ padded_assignment ++ "\n".toList),
          stdout := [] } = .ok w ∧ w.config.configKeyA = 0) ∧
    (words long_unknown_default).head? = some "foo".toList ∧
    (∀ o ∈ options, o.name ≠ "foo".toList) ∧
    (∃ w, configfile_load { TARGET_PSP := false, DEBUG := false } cfg
        { config := defaults,
          fs := fs_with ("key_a 5\n".toList ++ long_unknown_default ++ "\n".toList),
          stdout := [] } = .ok w ∧ w.config.configKeyA = 16384 ∧ defaults.configKeyA = 16384) :=
  ⟨by decide, ⟨_, rfl, rfl⟩, by decide, by decide, by decide, ⟨_, rfl, rfl⟩, by decide,
    by decide, ⟨_, rfl, rfl, rfl⟩⟩

end Configfile

/-! # Theorems: controller entry point -/

namespace Controller

theorem osContGetReadData_loop_eq_foldl {σ : Type} (impls : List (ControllerAPI σ)) :
    ∀ (pad : OSContPad) (s : σ),
      osContGetReadData_loop impls pad s =
        impls.foldl (fun (acc : OSContPad × σ) api => api.read acc.1 acc.2) (pad, s) := by
  induction impls with
  | nil => intro pad s; rfl
  | cons api rest ih => intro pad s; simp only [osContGetReadData_loop, List.foldl_cons, ih]

theorem osContGetReadData_loop_merge {σ : Type} :
    ∀ (impls : List (ControllerAPI σ)) (cs : List Contribution),
      List.Forall₂ Follows impls cs → ∀ (pad : OSContPad) (s : σ),
      (osContGetReadData_loop impls pad s).1 =
        { button := pad.button ||| or_masks cs,
          stick_x := last_written pad.stick_x (cs.map (fun c => c.stick_x)),
          stick_y := last_written pad.stick_y (cs.map (fun c => c.stick_y)),
          errnum := last_written pad.errnum (cs.map (fun c => c.errnum)) } := by
  intro impls cs h
  induction h with
  | nil => intro pad s; simp [osContGetReadData_loop, or_masks, last_written]
  | @cons api c rest cs1 hf _ ih =>
    intro pad s
    rw [osContGetReadData_loop]
    rw [ih (api.read pad s).1 (api.read pad s).2, hf pad s]
    simp only [Contribution.apply, or_masks, List.map_cons, Nat.lor_assoc]
    congr 1
    · cases c.stick_x <;> rfl
    · cases c.stick_y <;> rfl
    · cases c.errnum <;> rfl

/-- C2 (merge discipline). For every list of backends of which each follows the discipline
with its own contribution (ORs its mask into the buttons; writes or leaves alone each of
stick x, stick y and status), `osContGetReadData` ends with the buttons equal to the OR of
all masks and each of stick x, stick y, status equal to what the last backend that wrote it
wrote, 0 if none did. -/
theorem osContGetReadData_merge {σ : Type} (impls : List (ControllerAPI σ))
    (cs : List Contribution) (h : List.Forall₂ Follows impls cs) (pad : OSContPad) (s : σ) :
    (osContGetReadData impls pad s).1 =
      { button := or_masks cs,
        stick_x := last_written 0 (cs.map (fun c => c.stick_x)),
        stick_y := last_written 0 (cs.map (fun c => c.stick_y)),
        errnum := last_written 0 (cs.map (fun c => c.errnum)) } := by
  rw [osContGetReadData, osContGetReadData_loop_merge impls cs h]
  simp

theorem osContGetReadData_merge_witness :
    List.Forall₂ Follows [mock backend_A, mock backend_B] [backend_A, backend_B] ∧
    (osContGetReadData [mock backend_A, mock backend_B]
        { button := 0xFFFF, stick_x := -7, stick_y := 9, errnum := 4 } ()).1 =
      { button := 0x3, stick_x := 0, stick_y := 0, errnum := 0 } :=
  ⟨List.Forall₂.cons (fun _ _ => rfl) (List.Forall₂.cons (fun _ _ => rfl) List.Forall₂.nil),
    osContGetReadData_merge [mock backend_A, mock backend_B] [backend_A, backend_B]
      (List.Forall₂.cons (fun _ _ => rfl) (List.Forall₂.cons (fun _ _ => rfl) List.Forall₂.nil))
      { button := 0xFFFF, stick_x := -7, stick_y := 9, errnum := 4 } ()⟩

/-- C3 (the incoming pad does not matter). For every backend list, every two initial pads
and every state, `osContGetReadData` gives the same result, which is the left fold of the
backends' `read` in list order from the all-zero pad; with no backend it is the all-zero
pad. -/
theorem osContGetReadData_ignores_pad {σ : Type} (impls : List (ControllerAPI σ))
    (p1 p2 : OSContPad) (s : σ) :
    osContGetReadData impls p1 s = osContGetReadData impls p2 s ∧
    osContGetReadData impls p1 s =
      impls.foldl (fun (acc : OSContPad × σ) api => api.read acc.1 acc.2) (zero_pad, s) ∧
    osContGetReadData ([] : List (ControllerAPI σ)) p1 s = (zero_pad, s) := by
  refine ⟨rfl, ?_, rfl⟩
  rw [osContGetReadData, osContGetReadData_loop_eq_foldl]
  rfl

theorem osContInit_loop_eq_foldl {σ : Type} (impls : List (ControllerAPI σ)) :
    ∀ s : σ, osContInit_loop impls s = impls.foldl (fun s api => api.init s) s := by
  induction impls with
  | nil => intro s; rfl
  | cons api rest ih => intro s; simp only [osContInit_loop, List.foldl_cons, ih]

theorem osContInit_loop_log {σ : Type} (impls : List (ControllerAPI σ)) :
    ∀ (i : Nat) (log : List Nat) (s : σ),
      osContInit_loop (number_from i impls) (log, s) =
        (log ++ List.range' i impls.length, osContInit_loop impls s) := by
  induction impls with
  | nil => intro i log s; simp [number_from, osContInit_loop]
  | cons api rest ih =>
    intro i log s
    simp only [number_from, osContInit_loop, with_log, ih, List.length_cons, List.range'_succ,
      List.append_assoc, List.singleton_append]

/-- C14. For every backend list, every behaviour of the `init` functions, every prior value
of `*controllerBits` and every state, `osContInit` returns 0, leaves 1 in `*controllerBits`
and leaves the state that the `init` functions produce when applied once each in list order;
when every `init` also logs its position, the log gains exactly 0, 1, ..., n-1 in that
order. -/
theorem osContInit_calls_all {σ : Type} (impls : List (ControllerAPI σ)) (controllerBits : Nat)
    (s : σ) (log : List Nat) :
    osContInit impls controllerBits s = (0, 1, impls.foldl (fun s api => api.init s) s) ∧
    osContInit (number_from 0 impls) controllerBits (log, s) =
      (0, 1, (log ++ List.range impls.length, impls.foldl (fun s api => api.init s) s)) := by
  constructor
  · simp only [osContInit, osContInit_loop_eq_foldl]
  · simp only [osContInit, osContInit_loop_log, List.range_eq_range']
    rw [osContInit_loop_eq_foldl]

theorem osContGetReadData_loop_append {σ : Type} (pre post : List (ControllerAPI σ)) :
    ∀ (pad : OSContPad) (s : σ),
      osContGetReadData_loop (pre ++ post) pad s =
        osContGetReadData_loop post (osContGetReadData_loop pre pad s).1
          (osContGetReadData_loop pre pad s).2 := by
  induction pre with
  | nil => intro pad s; rfl
  | cons api rest ih =>
    intro pad s
    show osContGetReadData_loop (api :: (rest ++ post)) pad s = _
    rw [osContGetReadData_loop, ih]
    rfl

theorem osContGetReadData_loop_frame {σ : Type} (g : σ → σ) (post : List (ControllerAPI σ))
    (hframe : ∀ api ∈ post, ∀ pad s, api.read pad (g s) = ((api.read pad s).1, g (api.read pad s).2)) :
    ∀ (pad : OSContPad) (s : σ),
      osContGetReadData_loop post pad (g s) =
        ((osContGetReadData_loop post pad s).1, g (osContGetReadData_loop post pad s).2) := by
  induction post with
  | nil => intro pad s; rfl
  | cons api rest ih =>
    intro pad s
    have h1 := hframe api (by simp) pad s
    have ih1 := ih (fun a ha => hframe a (by simp [ha]))
    simp only [osContGetReadData_loop, h1, ih1]

/-- C15 (backend isolation). Insert anywhere in a backend list a backend whose `read`
leaves the pad untouched and whose change of the state, if any, is not seen by the
backends after it: `osContGetReadData` returns exactly the same pad as for the list without
it, and the state differs by that change only. -/
theorem osContGetReadData_noop_inserted {σ : Type} (pre post : List (ControllerAPI σ))
    (noop : ControllerAPI σ) (g : σ → σ) (hpad : ∀ pad s, noop.read pad s = (pad, g s))
    (hframe : ∀ api ∈ post, ∀ pad s,
      api.read pad (g s) = ((api.read pad s).1, g (api.read pad s).2))
    (pad : OSContPad) (s : σ) :
    (osContGetReadData (pre ++ noop :: post) pad s).1 =
      (osContGetReadData (pre ++ post) pad s).1 ∧
    (osContGetReadData (pre ++ noop :: post) pad s).2 =
      g (osContGetReadData (pre ++ post) pad s).2 := by
  simp only [osContGetReadData, osContGetReadData_loop_append, osContGetReadData_loop, hpad,
    osContGetReadData_loop_frame g post hframe, and_self]

theorem osContGetReadData_noop_inserted_witness :
    (∀ pad s, absent_device.read pad s = (pad, (fun n => n + 1) s)) ∧
    (∀ api ∈ [pressing 2], ∀ pad s,
      api.read pad ((fun n => n + 1) s) =
        ((api.read pad s).1, (fun n => n + 1) (api.read pad s).2)) ∧
    (osContGetReadData ([pressing 1] ++ absent_device :: [pressing 2]) zero_pad 0).1 =
      (osContGetReadData ([pressing 1] ++ [pressing 2]) zero_pad 0).1 ∧
    (osContGetReadData ([pressing 1] ++ absent_device :: [pressing 2]) zero_pad 0).2 =
      (fun n => n + 1) (osContGetReadData ([pressing 1] ++ [pressing 2]) zero_pad 0).2 :=
  ⟨fun _ _ => rfl, by intro api h; simp at h; subst h; intro pad s; rfl,
    osContGetReadData_noop_inserted [pressing 1] [pressing 2] absent_device (fun n => n + 1)
      (fun _ _ => rfl) (by intro api h; simp at h; subst h; intro pad s; rfl) zero_pad 0⟩

end Controller
